import Mathlib

/-!
# gen-ftype: file-type decoding table generator

A shallow embedding of `gen-ftype.c` and machine-checked statements about
its mask analysis, table construction and exit behaviour.

Conventions of the embedding
* `uint_t` values are natural numbers reduced modulo `2 ^ 32` wherever the C
  arithmetic can wrap.
* The `while` loop that aligns the mask has no termination guarantee in the
  source, so it is run with an explicit iteration budget (`fuel`); `none`
  means the budget was exhausted.
* Accesses outside the allocated buffer are undefined behaviour in C; the
  embedding makes them explicit failures (`none`).
* Text written with `printf` goes to `Chan.stdout`, text written with
  `eprintf` goes to `Chan.stderr`.
-/

namespace GenFtype

/-! ## Machine words -/

/-- Number of values of an `unsigned int` (`uint_t`). -/
def UINT_MOD : Nat := 2 ^ 32

/-- The NUL byte that terminates a C string. -/
def NUL : Char := Char.ofNat 0

/-! ## Output streams -/

/-- The two output streams of the process. -/
inductive Chan where
  | stdout
  | stderr
  deriving DecidableEq, Repr

/-- One piece of text written to one of the streams. -/
structure Out where
  chan : Chan
  text : String
  deriving DecidableEq, Repr

/-- Text written by `printf`. -/
def printf (s : String) : Out := ⟨Chan.stdout, s⟩

/-- Text written by `eprintf`, that is `fprintf(stderr, ...)`. -/
def eprintf (s : String) : Out := ⟨Chan.stderr, s⟩

/-- Conversion `%u`. -/
def fmt_u (n : Nat) : String := toString n

/-- Conversion `%x`. -/
def fmt_x (n : Nat) : String := String.mk (Nat.toDigits 16 n)

/-- Conversion `%o`. -/
def fmt_o (n : Nat) : String := String.mk (Nat.toDigits 8 n)

/-- Conversion `%c`. -/
def fmt_c (c : Char) : String := String.singleton c

/-- Conversion `%s` applied to a character buffer: the bytes before the first NUL. -/
def fmt_s (buf : List Char) : String := String.mk (buf.takeWhile (fun c => c != NUL))

/-! ## Mask analysis -/

/-- The macro `ISPOWEROF2` at type `unsigned int`: `(n & (n - 1)) == 0`,
where `n - 1` wraps around for `n = 0`. -/
def ISPOWEROF2 (n : Nat) : Bool :=
  (n &&& ((n + UINT_MOD - 1) % UINT_MOD)) == 0

/-- The function `is_simple_mask`: `ISPOWEROF2(mask + 1)` in `unsigned int` arithmetic. -/
def is_simple_mask (mask : Nat) : Bool :=
  ISPOWEROF2 ((mask + 1) % UINT_MOD)

/-- The alignment loop of `main`:
`while ((msk & 1) == 0) { msk >>= 1U; ++ifmt_shift; }`.
Returns the final `(msk, ifmt_shift)`, or `none` when `fuel` iterations did not
reach the exit of the loop. -/
def align_loop : Nat → Nat → Nat → Option (Nat × Nat)
  | 0, _, _ => none
  | fuel + 1, msk, ifmt_shift =>
    if msk &&& 1 = 0 then
      align_loop fuel (msk >>> 1) ((ifmt_shift + 1) % UINT_MOD)
    else
      some (msk, ifmt_shift)

/-- Outcome of the mask analysis of `main` once the alignment loop has ended. -/
inductive MaskResult where
  /-- The aligned mask passed `is_simple_mask`: aligned mask and shift. -/
  | accepted (msk : Nat) (ifmt_shift : Nat)
  /-- The aligned mask failed `is_simple_mask`: the diagnostics, then `exit(2)`. -/
  | rejected (diag : List Out)
  deriving DecidableEq, Repr

/-- The three diagnostics written when `S_IFMT` is not a simple mask. -/
def mask_error (S_IFMT : Nat) : List Out :=
  [ eprintf ("S_IFMT = 0x" ++ fmt_x (S_IFMT % UINT_MOD) ++ "\n"),
    eprintf "S_IFMT must be a simple mask.\n",
    eprintf "That is, it must be a mask that has a single run of 1 bits.\n" ]

/-- The mask analysis of `main`: `msk = S_IFMT; ifmt_shift = 0;`, the alignment
loop, then the `is_simple_mask` test. -/
def mask_analysis (fuel : Nat) (S_IFMT : Nat) : Option MaskResult :=
  match align_loop fuel (S_IFMT % UINT_MOD) 0 with
  | none => none
  | some (msk, ifmt_shift) =>
    if is_simple_mask msk then
      some (MaskResult.accepted msk ifmt_shift)
    else
      some (MaskResult.rejected (mask_error S_IFMT))

/-! ## Table construction -/

/-- The diagnostic of `add_ftype` for an occupied slot. -/
def collision (pos : Nat) (chr old_chr : Char) : Out :=
  eprintf ("ERROR: collision, position " ++ fmt_u pos ++ ", '" ++ fmt_c chr ++
    "' vs '" ++ fmt_c old_chr ++ "'\n")

/-- The function `add_ftype`: store `chr` at `pos` when the slot holds `'?'`,
otherwise leave the table alone and report a collision.
`none` stands for an access outside the buffer. -/
def add_ftype (table : List Char) (pos : Nat) (chr : Char) :
    Option (List Char × List Out) :=
  match table[pos]? with
  | none => none
  | some old_chr =>
    if old_chr = '?' then
      some (table.set pos chr, [])
    else
      some (table, [collision pos chr old_chr])

/-- The platform as seen by the preprocessor: the value of `S_IFMT` and, for
each file-type constant, its value when `<sys/stat.h>` defines it (`none` when
the `#if defined(...)` test fails). The constants are non-negative `int`
values. -/
structure Platform where
  S_IFMT : Nat
  S_IFIFO : Option Nat
  S_IFCHR : Option Nat
  S_IFDIR : Option Nat
  S_IFBLK : Option Nat
  S_IFREG : Option Nat
  S_IFLNK : Option Nat
  S_IFSOCK : Option Nat
  S_IFDOOR : Option Nat
  S_IFPORT : Option Nat
  S_IFWHT : Option Nat
  S_IFNWK : Option Nat
  deriving DecidableEq, Repr

/-- The eleven guarded `add_ftype` calls of `build_ftype_table`, in source
order: the guarded constant and the mnemonic passed with it. -/
def type_constants (p : Platform) : List (Option Nat × Char) :=
  [ (p.S_IFIFO, 'p'), (p.S_IFCHR, 'c'), (p.S_IFDIR, 'd'), (p.S_IFBLK, 'b'),
    (p.S_IFREG, '-'), (p.S_IFLNK, 'l'), (p.S_IFSOCK, 's'), (p.S_IFDOOR, 'D'),
    (p.S_IFPORT, 'E'), (p.S_IFWHT, 'w'), (p.S_IFNWK, 'n') ]

/-- The calls that survive preprocessing: `(constant, mnemonic)` in source order. -/
def assignments (p : Platform) : List (Nat × Char) :=
  (type_constants p).filterMap (fun cm => cm.1.map (fun c => (c, cm.2)))

/-- The calls `add_ftype(ftype_table, constant >> ifmt_shift, mnemonic)` run one
after the other; the diagnostics are collected in order. -/
def populate (ifmt_shift : Nat) : List (Nat × Char) → List Char → Option (List Char × List Out)
  | [], table => some (table, [])
  | (c, chr) :: rest, table =>
    match add_ftype table (c >>> ifmt_shift) chr with
    | none => none
    | some (table1, d1) =>
      match populate ifmt_shift rest table1 with
      | none => none
      | some (table2, d2) => some (table2, d1 ++ d2)

/-- The inner loop of the translation pass applied to the character of one slot:
`for (ti = 0; ti < tr_size; ti += 2) if (slot == tr[ti]) slot = tr[ti + 1];`.
Index `tr_size` of the translate string holds its terminating NUL. -/
def translate_slot (ftype_translate : List Char) (slot : Char) : Char :=
  (List.range ((ftype_translate.length + 1) / 2)).foldl
    (fun cur k =>
      if cur = ftype_translate.getD (2 * k) NUL then ftype_translate.getD (2 * k + 1) NUL
      else cur)
    slot

/-- One iteration of the outer loop of the translation pass, for slot `i`.
With an empty translate string the slot is not accessed at all. -/
def translate_at (ftype_translate : List Char) (table : List Char) (i : Nat) :
    Option (List Char) :=
  if ftype_translate.length = 0 then some table
  else
    match table[i]? with
    | none => none
    | some slot => some (table.set i (translate_slot ftype_translate slot))

/-- The translation pass of `build_ftype_table`:
`for (i = 0; i < ftype_table_size; ++i) ...`. -/
def translate_pass (ftype_translate : List Char) (table : List Char)
    (ftype_table_size : Nat) : Option (List Char) :=
  (List.range ftype_table_size).foldlM (translate_at ftype_translate) table

/-- The function `build_ftype_table`: the guarded `add_ftype` calls, then the
translation pass when `ftype_translate != NULL`. The globals `ifmt_shift` and
`ftype_translate` are passed explicitly. -/
def build_ftype_table (p : Platform) (ifmt_shift : Nat) (ftype_translate : Option (List Char))
    (ftype_table : List Char) (ftype_table_size : Nat) : Option (List Char × List Out) :=
  match populate ifmt_shift (assignments p) ftype_table with
  | none => none
  | some (table, diag) =>
    match ftype_translate with
    | none => some (table, diag)
    | some tr =>
      match translate_pass tr table ftype_table_size with
      | none => none
      | some table1 => some (table1, diag)

/-- The table size of `main`: `ftype_table_size = msk + 1;`, computed in
`unsigned int` arithmetic before the conversion to `size_t`. -/
def table_size (msk : Nat) : Nat := (msk + 1) % UINT_MOD

/-- The buffer set up by `main` before `build_ftype_table`:
`memset(ftype_table, '?', ftype_table_size); ftype_table[ftype_table_size] = '\0';`. -/
def fresh_table (ftype_table_size : Nat) : List Char :=
  List.replicate ftype_table_size '?' ++ [NUL]

/-! ## Emitters -/

/-- The verbose header shared by the three emitters, with the comment leader
`lead` (`//` or `#`). -/
def info_header (lead : String) (ftype_table : List Char) (ftype_table_size : Nat)
    (S_IFMT : Nat) (ifmt_shift : Nat) : List Out :=
  [ printf (lead ++ " INFO: ftype_table_size = " ++ fmt_u ftype_table_size ++ "\n"),
    printf (lead ++ " INFO: ftype_table = q[" ++ fmt_s ftype_table ++ "]\n"),
    printf (lead ++ " INFO: S_IFMT = 0x" ++ fmt_x (S_IFMT % UINT_MOD) ++ "\n"),
    printf (lead ++ " INFO: ifmt_shift = " ++ fmt_u ifmt_shift ++ "\n"),
    printf "\n" ]

/-- The function `generate_c`. -/
def generate_c (opt_verbose : Bool) (S_IFMT : Nat) (ftype_table : List Char)
    (ftype_table_size : Nat) (ifmt_shift : Nat) : List Out :=
  (if opt_verbose then info_header "//" ftype_table ftype_table_size S_IFMT ifmt_shift else []) ++
  [ printf ("static const char *ftype_table = \"" ++ fmt_s ftype_table ++ "\";\n"),
    printf "\n",
    printf "static inline unsigned int\n",
    printf "extract_bitfield(unsigned int wrd, unsigned int msk, unsigned int shft)\n",
    printf "\x7b\n",
    printf "    return ((wrd & msk) >> shft);\n",
    printf "\x7d\n",
    printf "\n",
    printf "mode_to_ftype(int m)\n",
    printf "\x7b\n",
    printf "    unsigned int pos = extract_bitfield(m, S_IFMT, ifmt_shift);\n",
    printf "    return (ftype_table[pos]);\n",
    printf "\x7d\n",
    printf "\n",
    printf ("#define mode_to_filetype(m) (\"" ++ fmt_s ftype_table ++ "\"[((m) & 0x" ++
      fmt_x (S_IFMT % UINT_MOD) ++ ") >> " ++ fmt_u ifmt_shift ++ "])\n") ]

/-- The function `generate_d`. -/
def generate_d (opt_verbose : Bool) (S_IFMT : Nat) (ftype_table : List Char)
    (ftype_table_size : Nat) (ifmt_shift : Nat) : List Out :=
  (if opt_verbose then info_header "//" ftype_table ftype_table_size S_IFMT ifmt_shift else []) ++
  [ printf ("static const char *ftype_table = \"" ++ fmt_s ftype_table ++ "\";\n"),
    printf "\n",
    printf "static inline unsigned int\n",
    printf "extract_bitfield(unsigned int wrd, unsigned int msk, unsigned int shft)\n",
    printf "\x7b\n",
    printf "    return ((wrd & msk) >> shft);\n",
    printf "\x7d\n",
    printf "\n",
    printf "mode_to_ftype(int m)\n",
    printf "\x7b\n",
    printf "    unsigned int pos = extract_bitfield(m, S_IFMT, ifmt_shift);\n",
    printf "    return (ftype_table[pos]);\n",
    printf "\x7d\n",
    printf "\n",
    printf ("#define mode_to_filetype(m) (\"" ++ fmt_s ftype_table ++ "\"[((m) & 0x" ++
      fmt_x (S_IFMT % UINT_MOD) ++ ") >> " ++ fmt_u ifmt_shift ++ "])\n") ]

/-- The function `generate_perl`. -/
def generate_perl (opt_verbose : Bool) (S_IFMT : Nat) (ftype_table : List Char)
    (ftype_table_size : Nat) (ifmt_shift : Nat) : List Out :=
  (if opt_verbose then info_header "#" ftype_table ftype_table_size S_IFMT ifmt_shift else []) ++
  [ printf ("sub mode_to_ftype \x7b substr(\"" ++ fmt_s ftype_table ++ "\", ($_[0] & 0x" ++
      fmt_x (S_IFMT % UINT_MOD) ++ ") >> " ++ fmt_u ifmt_shift ++ ", 1); \x7d\n") ]

/-! ## Command line and `main` -/

/-- The enumeration `lang`. -/
inductive language_t where
  | LANG_UNSPECIFIED
  | LANG_C
  | LANG_D
  | LANG_PERL
  deriving DecidableEq, Repr

/-- One return of `getopt_long` before the final `-1`, with the values of
`optarg` (`none` for `NULL`) and of `argv[optind]` that `main` reads. -/
inductive GetoptResult where
  /-- Return value `0`: the option name and `optarg`. -/
  | flag (name : String) (optarg : Option String)
  /-- Return value `OPT_VERBOSE`. -/
  | verbose
  /-- Return value `OPT_LANGUAGE`. -/
  | language (optarg : Option String) (argv_optind : String)
  /-- Return value `OPT_TRANSLATE`. -/
  | translate (optarg : Option String) (argv_optind : String)
  /-- Return value `'?'`. -/
  | question
  /-- Any other return value. -/
  | other (c : Nat)
  deriving DecidableEq, Repr

/-- The option globals of the program. -/
structure Settings where
  opt_verbose : Bool
  ftype_translate : Option (List Char)
  language : language_t
  deriving DecidableEq, Repr

/-- Initial values of the option globals. -/
def Settings.initial : Settings :=
  ⟨false, none, language_t.LANG_UNSPECIFIED⟩

/-- The function `show_languages`. -/
def show_languages : List Out :=
  [ printf "Known programming languages are:\n", printf "    C, D, perl\n" ]

/-- The body of the `switch (c)` of the option loop for one return of
`getopt_long`. `Except.error out` is `exit(2)` after writing `out`;
`Except.ok (s, out)` continues the loop. -/
def option_step (s : Settings) : GetoptResult → Except (List Out) (Settings × List Out)
  | GetoptResult.flag name optarg =>
    Except.ok (s,
      [printf ("option " ++ name)] ++
      (match optarg with
       | some a => [printf (" with arg " ++ a)]
       | none => []) ++
      [printf "\n"])
  | GetoptResult.verbose => Except.ok (⟨true, s.ftype_translate, s.language⟩, [])
  | GetoptResult.language none _ =>
    Except.error ([printf "--language: no language specified.\n"] ++ show_languages)
  | GetoptResult.language (some optarg) argv_optind =>
    if optarg = "C" then
      Except.ok (⟨s.opt_verbose, s.ftype_translate, language_t.LANG_C⟩, [])
    else if optarg = "D" then
      Except.ok (⟨s.opt_verbose, s.ftype_translate, language_t.LANG_D⟩, [])
    else if optarg = "perl" then
      Except.ok (⟨s.opt_verbose, s.ftype_translate, language_t.LANG_PERL⟩, [])
    else
      Except.error
        ([printf (argv_optind ++ ": unknown programming language, '" ++ optarg ++ "'.\n")] ++
          show_languages)
  | GetoptResult.translate none argv_optind =>
    Except.error [printf (argv_optind ++ ": no argument.\n")]
  | GetoptResult.translate (some optarg) _ =>
    Except.ok (⟨s.opt_verbose, some optarg.data, s.language⟩, [])
  | GetoptResult.question => Except.ok (s, [])
  | GetoptResult.other c =>
    Except.ok (s, [printf ("?? getopt returned character code 0" ++ fmt_o c ++ " ??\n")])

/-- The option loop of `main` over the successive returns of `getopt_long`;
`out` is the output written so far. -/
def option_loop : List GetoptResult → Settings → List Out → Except (List Out) (Settings × List Out)
  | [], s, out => Except.ok (s, out)
  | r :: rest, s, out =>
    match option_step s r with
    | Except.error o => Except.error (out ++ o)
    | Except.ok (s1, o) => option_loop rest s1 (out ++ o)

/-- The report of the non-option arguments (`if (optind < argc) ...`). -/
def non_option_args (args : List String) : List Out :=
  if args = [] then []
  else
    [printf "non-option ARGV-elements: "] ++ args.map (fun a => printf (a ++ " ")) ++
      [printf "\n"]

/-- How a run of the program ends. -/
inductive Run where
  /-- The call `exit(code)` after writing `out`. -/
  | exit (code : Nat) (out : List Out)
  /-- The alignment loop is still running when the iteration budget ends. -/
  | hang (out : List Out)
  /-- An access outside the table buffer: undefined behaviour. -/
  | fault
  deriving DecidableEq, Repr

/-- The function `main`, over the platform constants, the returns of
`getopt_long` and the remaining non-option arguments. `malloc` is assumed to
succeed. -/
def main (fuel : Nat) (p : Platform) (opts : List GetoptResult) (args : List String) : Run :=
  match option_loop opts Settings.initial [] with
  | Except.error out => Run.exit 2 out
  | Except.ok (s, out0) =>
    let out1 := out0 ++ non_option_args args
    match mask_analysis fuel p.S_IFMT with
    | none => Run.hang out1
    | some (MaskResult.rejected diag) => Run.exit 2 (out1 ++ diag)
    | some (MaskResult.accepted msk ifmt_shift) =>
      let ftype_table_size := table_size msk
      match build_ftype_table p ifmt_shift s.ftype_translate (fresh_table ftype_table_size)
          ftype_table_size with
      | none => Run.fault
      | some (ftype_table, diag) =>
        match s.language with
        | language_t.LANG_C =>
          Run.exit 0 (out1 ++ diag ++
            generate_c s.opt_verbose p.S_IFMT ftype_table ftype_table_size ifmt_shift)
        | language_t.LANG_D =>
          Run.exit 0 (out1 ++ diag ++
            generate_d s.opt_verbose p.S_IFMT ftype_table ftype_table_size ifmt_shift)
        | language_t.LANG_PERL =>
          Run.exit 0 (out1 ++ diag ++
            generate_perl s.opt_verbose p.S_IFMT ftype_table ftype_table_size ifmt_shift)
        | language_t.LANG_UNSPECIFIED =>
          Run.exit 2 (out1 ++ diag ++ [eprintf ("ERROR: Unknown language, " ++ fmt_u 0 ++ "\n")])

/-! ## Specification-side vocabulary

The definitions below are not taken from the source: they name what the
statements talk about (who claimed a slot first, which diagnostics are due,
the rule pairs of a translate string, option errors). -/

/-- Mnemonic of the first assignment of `as` whose shifted position is `pos`. -/
def first_claim (ifmt_shift : Nat) (as : List (Nat × Char)) (pos : Nat) : Option Char :=
  (as.find? (fun a => a.1 >>> ifmt_shift == pos)).map (fun a => a.2)

/-- The collision diagnostics expected from the assignments `rest`, applied in
order after the assignments `seen`: one for each assignment whose shifted
position was already claimed, naming the mnemonic of the first claimant. -/
def expected_collisions (ifmt_shift : Nat) : List (Nat × Char) → List (Nat × Char) → List Out
  | _, [] => []
  | seen, a :: rest =>
    (match first_claim ifmt_shift seen (a.1 >>> ifmt_shift) with
     | some old_chr => [collision (a.1 >>> ifmt_shift) a.2 old_chr]
     | none => []) ++
    expected_collisions ifmt_shift (seen ++ [a]) rest

/-- The mnemonics that `build_ftype_table` passes to `add_ftype`. -/
def known_mnemonics : List Char :=
  ['p', 'c', 'd', 'b', '-', 'l', 's', 'D', 'E', 'w', 'n']

/-- The rule pairs `(from, to)` of a translate string, two characters at a time. -/
def rule_pairs : List Char → List (Char × Char)
  | f :: t :: rest => (f, t) :: rule_pairs rest
  | _ => []

/-- One translation rule applied to a character. -/
def apply_rule (cur : Char) (r : Char × Char) : Char :=
  if cur = r.1 then r.2 else cur

/-- The rules applied one after the other, in list order, to a character. -/
def apply_rules (rules : List (Char × Char)) (c : Char) : Char :=
  rules.foldl apply_rule c

/-- The effect of the optional translation pass on the character of one slot. -/
def translate_opt (ftype_translate : Option (List Char)) (c : Char) : Char :=
  match ftype_translate with
  | none => c
  | some tr => translate_slot tr c

/-! ## Example platforms -/

/-- A platform with `S_IFMT = 0xF000` that defines only the directory, regular
file and symbolic link constants. -/
def scenario_platform : Platform :=
  { S_IFMT := 0xF000, S_IFIFO := none, S_IFCHR := none, S_IFDIR := some 0x4000,
    S_IFBLK := none, S_IFREG := some 0x8000, S_IFLNK := some 0xA000, S_IFSOCK := none,
    S_IFDOOR := none, S_IFPORT := none, S_IFWHT := none, S_IFNWK := none }

/-- A platform with the usual seven constants on which the door constant has
the value of the directory constant. -/
def door_alias_platform : Platform :=
  { S_IFMT := 0xF000, S_IFIFO := some 0x1000, S_IFCHR := some 0x2000, S_IFDIR := some 0x4000,
    S_IFBLK := some 0x6000, S_IFREG := some 0x8000, S_IFLNK := some 0xA000,
    S_IFSOCK := some 0xC000, S_IFDOOR := some 0x4000, S_IFPORT := none, S_IFWHT := none,
    S_IFNWK := none }

/-- A platform whose `S_IFMT` is zero. -/
def zero_mask_platform : Platform :=
  { S_IFMT := 0, S_IFIFO := none, S_IFCHR := none, S_IFDIR := none,
    S_IFBLK := none, S_IFREG := none, S_IFLNK := none, S_IFSOCK := none,
    S_IFDOOR := none, S_IFPORT := none, S_IFWHT := none, S_IFNWK := none }

/-- A platform whose `S_IFMT` has all 32 bits set and that defines the
directory constant. -/
def full_mask_platform : Platform :=
  { S_IFMT := 0xFFFFFFFF, S_IFIFO := none, S_IFCHR := none, S_IFDIR := some 0x4000,
    S_IFBLK := none, S_IFREG := none, S_IFLNK := none, S_IFSOCK := none,
    S_IFDOOR := none, S_IFPORT := none, S_IFWHT := none, S_IFNWK := none }

/-- A platform with `S_IFMT = 0x7000` whose regular file and symbolic link
constants both lie above the mask. -/
def nul_slot_platform : Platform :=
  { S_IFMT := 0x7000, S_IFIFO := none, S_IFCHR := none, S_IFDIR := none,
    S_IFBLK := none, S_IFREG := some 0x8000, S_IFLNK := some 0x8800, S_IFSOCK := none,
    S_IFDOOR := none, S_IFPORT := none, S_IFWHT := none, S_IFNWK := none }

/-- The returns of `getopt_long` that are configuration errors: a `--language`
or `--translate` without argument, or a `--language` value other than `C`,
`D` and `perl`. -/
def bad_option : GetoptResult → Bool
  | GetoptResult.language none _ => true
  | GetoptResult.language (some a) _ => !(a == "C" || a == "D" || a == "perl")
  | GetoptResult.translate none _ => true
  | _ => false

/-- The language in force after one return of `getopt_long`. -/
def language_after (l : language_t) : GetoptResult → language_t
  | GetoptResult.language (some a) _ =>
    if a = "C" then language_t.LANG_C
    else if a = "D" then language_t.LANG_D
    else if a = "perl" then language_t.LANG_PERL
    else l
  | _ => l

/-- The language selected by a command line: the last recognised `--language`. -/
def selected_language (opts : List GetoptResult) : language_t :=
  opts.foldl language_after language_t.LANG_UNSPECIFIED

/-! ## Lemmas on the mask analysis -/

/-- Unfolding of `UINT_MOD`. -/
theorem uint_mod_eq : UINT_MOD = 2 ^ 32 := rfl

/-- The alignment loop on an odd value shifted left by `lo`: it stops after `lo`
iterations with the odd value and the shift count advanced by `lo`. -/
theorem align_loop_shift (lo : Nat) : ∀ (fuel m s : Nat), m % 2 = 1 → lo < fuel →
    s + lo < UINT_MOD → align_loop fuel (m * 2 ^ lo) s = some (m, s + lo) := by
  induction lo with
  | zero =>
    intro fuel m s hm hf _
    obtain ⟨f, rfl⟩ : ∃ f, fuel = f + 1 := ⟨fuel - 1, by omega⟩
    simp [align_loop, hm]
  | succ lo ih =>
    intro fuel m s hm hf hs
    obtain ⟨f, rfl⟩ : ∃ f, fuel = f + 1 := ⟨fuel - 1, by omega⟩
    have h0 : (m * 2 ^ (lo + 1)) % 2 = 0 := by
      rw [pow_succ, ← mul_assoc]; exact Nat.mul_mod_left _ _
    have h1 : (m * 2 ^ (lo + 1)) >>> 1 = m * 2 ^ lo := by
      rw [Nat.shiftRight_eq_div_pow, pow_succ, ← mul_assoc]; simp
    have h2 : (s + 1) % UINT_MOD = s + 1 := Nat.mod_eq_of_lt (by omega)
    rw [align_loop]
    simp only [Nat.and_one_is_mod, h0, if_true, h1, h2]
    rw [ih f m (s + 1) hm (by omega) (by omega)]
    congr 2; omega

/-- The alignment loop never ends on the value zero. -/
theorem align_loop_zero : ∀ (fuel s : Nat), align_loop fuel 0 s = none := by
  intro fuel
  induction fuel with
  | zero => intro s; rfl
  | succ f ih => intro s; simp [align_loop, ih]

/-- A block of `len ≤ 32` low 1-bits passes `is_simple_mask`. -/
theorem is_simple_mask_ones (len : Nat) (hlen : len ≤ 32) : is_simple_mask (2 ^ len - 1) = true := by
  have hpos : 0 < 2 ^ len := Nat.pow_pos (by decide)
  have h1 : 2 ^ len - 1 + 1 = 2 ^ len := by omega
  unfold is_simple_mask ISPOWEROF2
  rw [h1]
  rcases Nat.lt_or_ge len 32 with h | h
  · have hlt : 2 ^ len < UINT_MOD := by
      rw [uint_mod_eq]; exact Nat.pow_lt_pow_right (by decide) h
    have h2 : (2 ^ len) % UINT_MOD = 2 ^ len := Nat.mod_eq_of_lt hlt
    have h3 : (2 ^ len + UINT_MOD - 1) % UINT_MOD = 2 ^ len - 1 := by
      have : 2 ^ len + UINT_MOD - 1 = (2 ^ len - 1) + UINT_MOD := by omega
      rw [this, Nat.add_mod_right]; exact Nat.mod_eq_of_lt (by omega)
    rw [h2, h3, Nat.and_pow_two_sub_one_eq_mod]
    simp
  · have : len = 32 := by omega
    subst this
    simp [UINT_MOD]

/-- If `m + 1` and `m` share no bit then `m + 1` is a power of two. -/
theorem and_succ_eq_zero (m : Nat) (h : (m + 1) &&& m = 0) : ∃ k, m + 1 = 2 ^ k := by
  by_contra hne
  push_neg at hne
  have hle : 2 ^ Nat.log 2 (m + 1) ≤ m + 1 := Nat.pow_log_le_self 2 (by omega)
  have hlt : m + 1 < 2 ^ (Nat.log 2 (m + 1) + 1) := Nat.lt_pow_succ_log_self (by decide) _
  generalize Nat.log 2 (m + 1) = k at hle hlt
  have hk : 2 ^ k ≤ m := by
    have := hne k
    omega
  have hpos : 0 < 2 ^ k := Nat.pow_pos (by decide)
  have hdiv : ∀ x, 2 ^ k ≤ x → x < 2 ^ (k + 1) → x.testBit k = true := by
    intro x h1 h2
    rw [Nat.testBit_to_div_mod]
    have hx : x / 2 ^ k = 1 := by
      apply Nat.div_eq_of_lt_le
      · simpa using h1
      · rw [pow_succ] at h2; omega
    simp [hx]
  have hb : ((m + 1) &&& m).testBit k = true := by
    rw [Nat.testBit_and, hdiv (m + 1) hle hlt, hdiv m hk (by omega)]
    rfl
  rw [h] at hb
  simp at hb

/-- An odd 32-bit value that passes `is_simple_mask` is a block of low 1-bits. -/
theorem is_simple_mask_odd (m : Nat) (hm : m % 2 = 1) (hlt : m < UINT_MOD)
    (h : is_simple_mask m = true) : ∃ len, 0 < len ∧ len ≤ 32 ∧ m = 2 ^ len - 1 := by
  rcases Nat.lt_or_ge (m + 1) UINT_MOD with h1 | h1
  · unfold is_simple_mask ISPOWEROF2 at h
    have h2 : (m + 1) % UINT_MOD = m + 1 := Nat.mod_eq_of_lt h1
    have h3 : (m + 1 + UINT_MOD - 1) % UINT_MOD = m := by
      have : m + 1 + UINT_MOD - 1 = m + UINT_MOD := by omega
      rw [this, Nat.add_mod_right]; exact Nat.mod_eq_of_lt hlt
    rw [h2, h3] at h
    obtain ⟨k, hk⟩ := and_succ_eq_zero m (by simpa using h)
    refine ⟨k, ?_, ?_, by omega⟩
    · rcases Nat.eq_zero_or_pos k with rfl | hk0
      · simp at hk; omega
      · exact hk0
    · by_contra hgt
      push_neg at hgt
      have : 2 ^ 32 < 2 ^ k := Nat.pow_lt_pow_right (by decide) hgt
      rw [uint_mod_eq] at h1
      omega
  · refine ⟨32, by decide, le_refl _, ?_⟩
    rw [uint_mod_eq] at h1 hlt
    omega

/-- Every nonzero 32-bit value is an odd value shifted left by fewer than 32 bits. -/
theorem odd_part (M : Nat) (h0 : M ≠ 0) (hM : M < UINT_MOD) :
    ∃ lo m, m % 2 = 1 ∧ M = m * 2 ^ lo ∧ lo < 32 ∧ m < UINT_MOD := by
  obtain ⟨k, m, hodd, rfl⟩ := Nat.exists_eq_two_pow_mul_odd h0
  have hm1 : 1 ≤ m := by
    rcases hodd with ⟨r, rfl⟩; omega
  have hpos : 0 < 2 ^ k := Nat.pow_pos (by decide)
  refine ⟨k, m, Nat.odd_iff.mp hodd, Nat.mul_comm _ _, ?_, ?_⟩
  · by_contra hk
    push_neg at hk
    have h1 : 2 ^ 32 ≤ 2 ^ k := Nat.pow_le_pow_right (by decide) hk
    have h2 : 2 ^ k * 1 ≤ 2 ^ k * m := Nat.mul_le_mul_left _ hm1
    rw [uint_mod_eq] at hM
    omega
  · have h2 : 1 * m ≤ 2 ^ k * m := Nat.mul_le_mul_right _ hpos
    omega

/-- A run of 1-bits inside bits 0..31 is a 32-bit value. -/
theorem run_lt_uint_mod (lo len : Nat) (hw : lo + len ≤ 32) :
    (2 ^ len - 1) * 2 ^ lo < UINT_MOD := by
  have hpos : 0 < 2 ^ len := Nat.pow_pos (by decide)
  have hposlo : 0 < 2 ^ lo := Nat.pow_pos (by decide)
  have h1 : (2 ^ len - 1) * 2 ^ lo < 2 ^ len * 2 ^ lo :=
    Nat.mul_lt_mul_of_pos_right (by omega) hposlo
  have h2 : 2 ^ len * 2 ^ lo ≤ 2 ^ 32 := by
    rw [← pow_add]; exact Nat.pow_le_pow_right (by decide) (by omega)
  rw [uint_mod_eq]; omega

/-- A nonempty block of low 1-bits is odd. -/
theorem ones_odd (len : Nat) (hlen : 0 < len) : (2 ^ len - 1) % 2 = 1 := by
  obtain ⟨k, rfl⟩ : ∃ k, len = k + 1 := ⟨len - 1, by omega⟩
  have hpos : 0 < 2 ^ k := Nat.pow_pos (by decide)
  rw [pow_succ]; omega

/-- The mask analysis accepts a run of `len` 1-bits starting at bit `lo`. -/
theorem mask_analysis_of_run (lo len fuel : Nat) (hlen : 0 < len) (hw : lo + len ≤ 32)
    (hfuel : lo < fuel) :
    mask_analysis fuel ((2 ^ len - 1) * 2 ^ lo) = some (MaskResult.accepted (2 ^ len - 1) lo) := by
  have hlt := run_lt_uint_mod lo len hw
  unfold mask_analysis
  rw [Nat.mod_eq_of_lt hlt,
    align_loop_shift lo fuel (2 ^ len - 1) 0 (ones_odd len hlen) hfuel
      (by rw [uint_mod_eq]; omega)]
  simp [is_simple_mask_ones len (by omega)]

/-- The mask analysis rejects every nonzero 32-bit mask that is not one run of
1-bits, with the mask-shape diagnostics. -/
theorem mask_analysis_rejects (M fuel : Nat) (h0 : M ≠ 0) (hM : M < UINT_MOD)
    (hrun : ¬ ∃ lo len, 0 < len ∧ lo + len ≤ 32 ∧ M = (2 ^ len - 1) * 2 ^ lo)
    (hfuel : 32 ≤ fuel) :
    mask_analysis fuel M = some (MaskResult.rejected (mask_error M)) := by
  obtain ⟨lo, m, hodd, rfl, hlo, hm⟩ := odd_part M h0 hM
  unfold mask_analysis
  rw [Nat.mod_eq_of_lt hM,
    align_loop_shift lo fuel m 0 hodd (by omega) (by rw [uint_mod_eq]; omega)]
  have hns : is_simple_mask m = false := by
    by_contra hs
    have hs1 : is_simple_mask m = true := by simpa using hs
    obtain ⟨len, hlen, hle, rfl⟩ := is_simple_mask_odd m hodd hm hs1
    apply hrun
    refine ⟨lo, len, hlen, ?_, rfl⟩
    by_contra hgt
    push_neg at hgt
    have hpos : 0 < 2 ^ len := Nat.pow_pos (by decide)
    have h2 : 2 ^ 32 ≤ 2 ^ (lo + len - 1) := Nat.pow_le_pow_right (by decide) (by omega)
    have h3 : 2 ^ (lo + len - 1) = 2 ^ (len - 1) * 2 ^ lo := by
      rw [← pow_add]; congr 1; omega
    have h4 : 2 ^ (len - 1) ≤ 2 ^ len - 1 := by
      obtain ⟨k, rfl⟩ : ∃ k, len = k + 1 := ⟨len - 1, by omega⟩
      have : 0 < 2 ^ k := Nat.pow_pos (by decide)
      simp only [Nat.add_sub_cancel, pow_succ]; omega
    have h5 : 2 ^ (len - 1) * 2 ^ lo ≤ (2 ^ len - 1) * 2 ^ lo := Nat.mul_le_mul_right _ h4
    rw [uint_mod_eq] at hM
    omega
  simp [hns]

/-- What the alignment loop returns: the input shifted right by the number `k` of
iterations made, which is odd, all lower bits of the input being clear. -/
theorem align_loop_result : ∀ (fuel m s m1 s1 : Nat), s < UINT_MOD →
    align_loop fuel m s = some (m1, s1) →
    ∃ k, k < fuel ∧ m1 = m >>> k ∧ s1 = (s + k) % UINT_MOD ∧ m1 % 2 = 1 ∧
      ∀ j, j < k → (m >>> j) % 2 = 0 := by
  intro fuel
  induction fuel with
  | zero => intro m s m1 s1 _ h; simp [align_loop] at h
  | succ f ih =>
    intro m s m1 s1 hs h
    rw [align_loop] at h
    by_cases hbit : m &&& 1 = 0
    · rw [if_pos hbit] at h
      obtain ⟨k, hk, hm1, hs1, hodd, hlow⟩ :=
        ih (m >>> 1) ((s + 1) % UINT_MOD) m1 s1 (Nat.mod_lt _ (by decide)) h
      refine ⟨k + 1, by omega, ?_, ?_, hodd, ?_⟩
      · rw [hm1, ← Nat.shiftRight_add, Nat.add_comm]
      · rw [hs1, Nat.mod_add_mod]; congr 1; omega
      · intro j hj
        rcases Nat.eq_zero_or_pos j with rfl | hj0
        · simpa using hbit
        · obtain ⟨i, rfl⟩ : ∃ i, j = i + 1 := ⟨j - 1, by omega⟩
          have := hlow i (by omega)
          rwa [← Nat.shiftRight_add, Nat.add_comm] at this
    · rw [if_neg hbit] at h
      simp only [Option.some.injEq, Prod.mk.injEq] at h
      obtain ⟨rfl, rfl⟩ := h
      refine ⟨0, by omega, rfl, ?_, ?_, ?_⟩
      · rw [Nat.add_zero, Nat.mod_eq_of_lt hs]
      · rw [Nat.and_one_is_mod] at hbit; omega
      · intro j hj; omega

/-- Facts about an accepted 32-bit mask. -/
theorem mask_analysis_accepted (M fuel msk sh : Nat) (hM : M < UINT_MOD)
    (hacc : mask_analysis fuel M = some (MaskResult.accepted msk sh)) :
    msk = M >>> sh ∧ sh < 32 ∧ msk % 2 = 1 ∧ is_simple_mask msk = true := by
  unfold mask_analysis at hacc
  rw [Nat.mod_eq_of_lt hM] at hacc
  cases hal : align_loop fuel M 0 with
  | none => rw [hal] at hacc; cases hacc
  | some r =>
    obtain ⟨m1, s1⟩ := r
    rw [hal] at hacc
    by_cases hs : is_simple_mask m1 = true
    · simp only [hs, if_true, Option.some.injEq, MaskResult.accepted.injEq] at hacc
      obtain ⟨rfl, rfl⟩ := hacc
      obtain ⟨k, -, hm1, hs1, hodd, -⟩ := align_loop_result fuel M 0 m1 s1 (by decide) hal
      have hk : k < 32 := by
        by_contra hge
        push_neg at hge
        have h1 : 2 ^ 32 ≤ 2 ^ k := Nat.pow_le_pow_right (by decide) hge
        have h2 : M >>> k = 0 := by
          rw [Nat.shiftRight_eq_div_pow]
          apply Nat.div_eq_of_lt
          rw [uint_mod_eq] at hM; omega
        rw [hm1, h2] at hodd
        cases hodd
      have hsk : s1 = k := by
        rw [hs1, Nat.zero_add]; exact Nat.mod_eq_of_lt (by rw [uint_mod_eq]; omega)
      subst hsk
      exact ⟨hm1, hk, hodd, hs⟩
    · simp [hs] at hacc

/-- The alignment loop on an odd value shifted left by `lo` is still running
after `lo` or fewer condition tests. -/
theorem align_loop_short (lo : Nat) : ∀ (fuel m s : Nat), fuel ≤ lo →
    align_loop fuel (m * 2 ^ lo) s = none := by
  induction lo with
  | zero =>
    intro fuel m s hf
    have : fuel = 0 := by omega
    subst this
    rfl
  | succ lo ih =>
    intro fuel m s hf
    rcases Nat.eq_zero_or_pos fuel with rfl | hpos
    · rfl
    · obtain ⟨f, rfl⟩ : ∃ f, fuel = f + 1 := ⟨fuel - 1, by omega⟩
      have h0 : (m * 2 ^ (lo + 1)) % 2 = 0 := by
        rw [pow_succ, ← mul_assoc]; exact Nat.mul_mod_left _ _
      have h1 : (m * 2 ^ (lo + 1)) >>> 1 = m * 2 ^ lo := by
        rw [Nat.shiftRight_eq_div_pow, pow_succ, ← mul_assoc]; simp
      rw [align_loop]
      simp only [Nat.and_one_is_mod, h0, if_true, h1]
      exact ih f m _ (by omega)

/-- The alignment loop on a nonzero 32-bit value: it ends after `sh ≤ 31`
iterations, `sh` being the position of the lowest 1-bit, and returns the value
shifted right by `sh`, which is odd. -/
theorem align_loop_nonzero (M : Nat) (h0 : M ≠ 0) (hM : M < UINT_MOD) :
    ∃ msk sh, sh ≤ 31 ∧ msk % 2 = 1 ∧ M = msk * 2 ^ sh ∧ msk = M >>> sh ∧
      (∀ fuel, sh < fuel → align_loop fuel M 0 = some (msk, sh)) ∧
      (∀ fuel, fuel ≤ sh → align_loop fuel M 0 = none) := by
  obtain ⟨lo, m, hodd, rfl, hlo, -⟩ := odd_part M h0 hM
  refine ⟨m, lo, by omega, hodd, rfl, ?_, ?_, ?_⟩
  · rw [Nat.shiftRight_eq_div_pow]
    exact (Nat.mul_div_cancel _ (Nat.pow_pos (by decide))).symm
  · intro fuel hf
    have h := align_loop_shift lo fuel m 0 hodd hf (by rw [uint_mod_eq]; omega)
    rwa [Nat.zero_add] at h
  · intro fuel hf
    exact align_loop_short lo fuel m 0 hf

/-- Bits of an odd value shifted left by `lo`: bit `lo` is set and every lower
bit is clear. -/
theorem testBit_odd_shift (m lo : Nat) (hodd : m % 2 = 1) :
    (m * 2 ^ lo).testBit lo = true ∧ ∀ j, j < lo → (m * 2 ^ lo).testBit j = false := by
  constructor
  · rw [Nat.testBit_to_div_mod, Nat.mul_div_cancel _ (Nat.pow_pos (by decide))]
    simp [hodd]
  · intro j hj
    rw [Nat.testBit_to_div_mod]
    have hsplit : m * 2 ^ lo = (m * 2 ^ (lo - j - 1) * 2) * 2 ^ j := by
      have : lo = (lo - j - 1) + 1 + j := by omega
      conv_lhs => rw [this]
      rw [pow_add, pow_succ]
      ring
    rw [hsplit, Nat.mul_div_cancel _ (Nat.pow_pos (by decide))]
    simp

/-- For an accepted 32-bit mask other than `0xFFFFFFFF` the table size is the
aligned mask plus one, so every lookup index `(m & M) >> shift` and the shifted
position of every constant inside the mask is below the table size. -/
theorem lookup_index_in_range (M fuel msk sh : Nat) (hM : M < UINT_MOD)
    (hne : M ≠ UINT_MOD - 1)
    (hacc : mask_analysis fuel M = some (MaskResult.accepted msk sh)) :
    (∀ m, (m &&& M) >>> sh < table_size msk) ∧
      ∀ c, c &&& M = c → c >>> sh < table_size msk := by
  obtain ⟨hmsk, -, -, -⟩ := mask_analysis_accepted M fuel msk sh hM hacc
  have hle : M >>> sh ≤ M := by
    rw [Nat.shiftRight_eq_div_pow]; exact Nat.div_le_self _ _
  have hsize : table_size msk = M >>> sh + 1 := by
    rw [table_size, hmsk]
    exact Nat.mod_eq_of_lt (by omega)
  have hidx : ∀ m, (m &&& M) >>> sh < table_size msk := by
    intro m
    have h1 : m &&& M ≤ M := Nat.and_le_right
    have h2 : (m &&& M) >>> sh ≤ M >>> sh := by
      rw [Nat.shiftRight_eq_div_pow, Nat.shiftRight_eq_div_pow]
      exact Nat.div_le_div_right h1
    omega
  refine ⟨hidx, ?_⟩
  intro c hc
  have := hidx c
  rwa [hc] at this

/-! ## Lemmas on the table construction -/

/-- The first claimant of a position after one more assignment. -/
theorem first_claim_snoc (sh : Nat) (seen : List (Nat × Char)) (a : Nat × Char) (pos : Nat) :
    first_claim sh (seen ++ [a]) pos =
      match first_claim sh seen pos with
      | some c => some c
      | none => if a.1 >>> sh = pos then some a.2 else none := by
  unfold first_claim
  rw [List.find?_append]
  cases h : seen.find? (fun a => a.1 >>> sh == pos) with
  | some x => simp
  | none =>
    by_cases hp : a.1 >>> sh = pos
    · simp [List.find?_cons, hp]
    · simp [List.find?_cons, hp]

/-- A first claimant taken from assignments without `?` mnemonic is not `?`. -/
theorem first_claim_ne_sentinel (sh : Nat) (seen : List (Nat × Char)) (pos : Nat) (c : Char)
    (hq : ∀ a ∈ seen, a.2 ≠ '?') (h : first_claim sh seen pos = some c) : c ≠ '?' := by
  unfold first_claim at h
  cases hf : seen.find? (fun a => a.1 >>> sh == pos) with
  | none => simp [hf] at h
  | some x =>
    simp [hf] at h
    subst h
    exact hq x (List.mem_of_find?_eq_some hf)

/-- Invariant of `populate`: when each of the first `n` slots holds the mnemonic of
its first claimant among `seen` (or `?`), running the assignments `rest`
succeeds, emits the expected collisions, and re-establishes the invariant for
`seen ++ rest`; positions from `n` on are untouched. -/
theorem populate_spec (sh n : Nat) : ∀ (rest seen : List (Nat × Char)) (table : List Char),
    (∀ pos, pos < n → table[pos]? = some ((first_claim sh seen pos).getD '?')) →
    (∀ a ∈ seen, a.2 ≠ '?') → (∀ a ∈ rest, a.2 ≠ '?') → (∀ a ∈ rest, a.1 >>> sh < n) →
    ∃ t, populate sh rest table = some (t, expected_collisions sh seen rest) ∧
      t.length = table.length ∧
      (∀ pos, pos < n → t[pos]? = some ((first_claim sh (seen ++ rest) pos).getD '?')) ∧
      (∀ i, n ≤ i → t[i]? = table[i]?) := by
  intro rest
  induction rest with
  | nil =>
    intro seen table hinv _ _ _
    exact ⟨table, rfl, rfl, by simpa using hinv, fun _ _ => rfl⟩
  | cons a rest ih =>
    intro seen table hinv hseen hrest hrange
    have ha : a.1 >>> sh < n := hrange a (List.mem_cons_self _ _)
    have haq : a.2 ≠ '?' := hrest a (List.mem_cons_self _ _)
    have hslot := hinv _ ha
    have hseen1 : ∀ x ∈ seen ++ [a], x.2 ≠ '?' := by
      intro x hx
      rcases List.mem_append.mp hx with h | h
      · exact hseen x h
      · rw [List.mem_singleton.mp h]; exact haq
    have hrest1 : ∀ x ∈ rest, x.2 ≠ '?' := fun x hx => hrest x (List.mem_cons_of_mem _ hx)
    have hrange1 : ∀ x ∈ rest, x.1 >>> sh < n := fun x hx => hrange x (List.mem_cons_of_mem _ hx)
    cases hfc : first_claim sh seen (a.1 >>> sh) with
    | none =>
      rw [hfc] at hslot
      have hlt : a.1 >>> sh < table.length := by
        by_contra hge
        rw [List.getElem?_eq_none (by omega)] at hslot
        cases hslot
      have hinv1 : ∀ pos, pos < n →
          (table.set (a.1 >>> sh) a.2)[pos]? =
            some ((first_claim sh (seen ++ [a]) pos).getD '?') := by
        intro pos hpos
        rw [first_claim_snoc]
        by_cases hp : a.1 >>> sh = pos
        · subst hp
          simp [hfc, List.getElem?_set, hlt]
        · have := hinv pos hpos
          cases hfc1 : first_claim sh seen pos with
          | none => simp [hfc1, hp, List.getElem?_set] at this ⊢; exact this
          | some c => simp [hfc1, hp, List.getElem?_set] at this ⊢; exact this
      obtain ⟨t, ht, hlen, hslots, hrestt⟩ :=
        ih (seen ++ [a]) (table.set (a.1 >>> sh) a.2) hinv1 hseen1 hrest1 hrange1
      refine ⟨t, ?_, by simpa using hlen, by simpa using hslots, ?_⟩
      · obtain ⟨c, chr⟩ := a
        simp only [populate, add_ftype, hslot, Option.getD_none, if_true, ht,
          expected_collisions, hfc, List.nil_append]
      · intro i hi
        rw [hrestt i hi, List.getElem?_set]
        have : a.1 >>> sh ≠ i := by omega
        simp [this]
    | some old =>
      rw [hfc] at hslot
      have hold : old ≠ '?' := first_claim_ne_sentinel sh seen _ old hseen hfc
      have hinv1 : ∀ pos, pos < n →
          table[pos]? = some ((first_claim sh (seen ++ [a]) pos).getD '?') := by
        intro pos hpos
        rw [first_claim_snoc, hinv pos hpos]
        cases hfc1 : first_claim sh seen pos with
        | none =>
          have hp : a.1 >>> sh ≠ pos := by
            intro h; rw [h] at hfc; rw [hfc] at hfc1; cases hfc1
          simp [hp]
        | some c => simp
      obtain ⟨t, ht, hlen, hslots, hrestt⟩ := ih (seen ++ [a]) table hinv1 hseen1 hrest1 hrange1
      refine ⟨t, ?_, hlen, by simpa using hslots, hrestt⟩
      obtain ⟨c, chr⟩ := a
      simp only [populate, add_ftype, hslot, Option.getD_some, hold, if_false, ht,
        expected_collisions, hfc]

/-- Length of the fresh buffer. -/
theorem fresh_table_length (n : Nat) : (fresh_table n).length = n + 1 := by
  simp [fresh_table]

/-- Every slot of the fresh buffer holds the sentinel. -/
theorem fresh_table_slot (n pos : Nat) (h : pos < n) : (fresh_table n)[pos]? = some '?' := by
  simp [fresh_table, List.getElem?_append_left, h]

/-- The fresh buffer ends with NUL. -/
theorem fresh_table_nul (n : Nat) : (fresh_table n)[n]? = some NUL := by
  simp [fresh_table, List.getElem?_append_right]

/-- Every assignment of a platform carries a known mnemonic. -/
theorem assignments_mnemonic (p : Platform) (a : Nat × Char) (h : a ∈ assignments p) :
    a.2 ∈ known_mnemonics := by
  simp only [assignments, type_constants, List.mem_filterMap] at h
  obtain ⟨cm, hcm, hmap⟩ := h
  simp only [List.mem_cons, List.mem_singleton, List.not_mem_nil, or_false] at hcm
  rcases hcm with h | h | h | h | h | h | h | h | h | h | h <;>
    (subst h; simp only [Option.map_eq_some'] at hmap; obtain ⟨c, -, rfl⟩ := hmap;
     simp [known_mnemonics])

/-- The sentinel is not a known mnemonic. -/
theorem known_mnemonics_ne_sentinel (c : Char) (h : c ∈ known_mnemonics) : c ≠ '?' := by
  intro hc
  subst hc
  revert h
  decide

/-- Expected collisions of a concatenation. -/
theorem expected_collisions_append (sh : Nat) : ∀ (l1 seen l2 : List (Nat × Char)),
    expected_collisions sh seen (l1 ++ l2) =
      expected_collisions sh seen l1 ++ expected_collisions sh (seen ++ l1) l2 := by
  intro l1
  induction l1 with
  | nil => intro seen l2; simp [expected_collisions]
  | cons a l1 ih =>
    intro seen l2
    have h := ih (seen ++ [a]) l2
    rw [List.append_assoc, List.singleton_append] at h
    rw [List.cons_append, expected_collisions, expected_collisions, h, List.append_assoc]

/-- The first assignment at its position is the first claimant of that position. -/
theorem first_claim_first (sh : Nat) (pre rest : List (Nat × Char)) (a : Nat × Char)
    (hpre : ∀ x ∈ pre, x.1 >>> sh ≠ a.1 >>> sh) :
    first_claim sh (pre ++ a :: rest) (a.1 >>> sh) = some a.2 := by
  unfold first_claim
  rw [List.find?_append]
  have h1 : pre.find? (fun x => x.1 >>> sh == a.1 >>> sh) = none := by
    rw [List.find?_eq_none]
    intro x hx
    simpa using hpre x hx
  simp [h1, List.find?_cons]

/-- The inner translation loop with an empty translate string. -/
theorem translate_slot_nil (c : Char) : translate_slot [] c = c := by
  simp [translate_slot]

/-- The inner translation loop consumes the translate string one pair at a time. -/
theorem translate_slot_cons_cons (f t : Char) (rest : List Char) (c : Char) :
    translate_slot (f :: t :: rest) c = translate_slot rest (if c = f then t else c) := by
  unfold translate_slot
  have hlen : ((f :: t :: rest).length + 1) / 2 = (rest.length + 1) / 2 + 1 := by
    simp only [List.length_cons]; omega
  rw [hlen, List.range_succ_eq_map, List.foldl_cons, List.foldl_map]
  have h0 : (f :: t :: rest).getD (2 * 0) NUL = f := rfl
  have h1 : (f :: t :: rest).getD (2 * 0 + 1) NUL = t := rfl
  rw [h0, h1]
  congr 1

/-- For an even-length translate string the inner loop is the fold of its pairs. -/
theorem translate_slot_eq_apply_rules : ∀ (n : Nat) (tr : List Char) (c : Char),
    tr.length = 2 * n → translate_slot tr c = apply_rules (rule_pairs tr) c := by
  intro n
  induction n with
  | zero =>
    intro tr c h
    have : tr = [] := List.length_eq_zero.mp (by omega)
    subst this
    simp [translate_slot_nil, rule_pairs, apply_rules]
  | succ n ih =>
    intro tr c h
    match tr, h with
    | f :: t :: rest, h =>
      have hrest : rest.length = 2 * n := by simp only [List.length_cons] at h; omega
      rw [translate_slot_cons_cons, ih rest _ hrest]
      simp [rule_pairs, apply_rules, apply_rule]

/-- The translation pass over a buffer that covers `size`: it succeeds, keeps the
length, applies the inner loop to each of the first `size` slots and leaves
the rest alone. -/
theorem translate_pass_spec (tr : List Char) (table : List Char) : ∀ (size : Nat),
    size ≤ table.length →
    ∃ T, translate_pass tr table size = some T ∧ T.length = table.length ∧
      (∀ i, i < size → T[i]? = table[i]?.map (translate_slot tr)) ∧
      (∀ i, size ≤ i → T[i]? = table[i]?) := by
  intro size
  induction size with
  | zero =>
    intro _
    exact ⟨table, rfl, rfl, fun i hi => absurd hi (Nat.not_lt_zero i), fun _ _ => rfl⟩
  | succ k ih =>
    intro hk
    obtain ⟨T, hT, hlen, hlow, hhigh⟩ := ih (by omega)
    have hget : T[k]? = some table[k] := by
      rw [hhigh k (le_refl k)]; exact List.getElem?_eq_getElem (by omega)
    have hpass : translate_pass tr table (k + 1) =
        (translate_pass tr table k).bind (fun t => translate_at tr t k) := by
      unfold translate_pass
      rw [List.range_succ, List.foldlM_append]
      simp [List.foldlM, Option.bind_eq_bind]
    rw [hpass, hT, Option.some_bind]
    by_cases htr : tr.length = 0
    · have htr0 : tr = [] := List.length_eq_zero.mp htr
      subst htr0
      refine ⟨T, by simp [translate_at], hlen, ?_, fun i hi => hhigh i (by omega)⟩
      intro i hi
      rcases Nat.lt_or_ge i k with h | h
      · exact hlow i h
      · have : i = k := by omega
        subst this
        rw [hhigh i (le_refl i)]
        cases table[i]? <;> simp [translate_slot_nil]
    · refine ⟨T.set k (translate_slot tr table[k]), by simp [translate_at, htr, hget],
        by simpa using hlen, ?_, ?_⟩
      · intro i hi
        rcases Nat.lt_or_ge i k with h | h
        · have hne : k ≠ i := by omega
          rw [List.getElem?_set, if_neg hne]
          exact hlow i h
        · have : i = k := by omega
          subst this
          have hlt : i < T.length := by omega
          rw [List.getElem?_set, if_pos rfl, if_pos hlt, List.getElem?_eq_getElem (by omega)]
          rfl
      · intro i hi
        have hne : k ≠ i := by omega
        rw [List.getElem?_set, if_neg hne]
        exact hhigh i (by omega)

/-- Result of `build_ftype_table` on the fresh buffer of `n` slots when every
shifted position is a slot: the expected collisions are emitted, the buffer
keeps its length and its NUL, and each slot holds the (translated) mnemonic
of its first claimant, or the (translated) sentinel. -/
theorem build_ftype_table_spec (p : Platform) (sh n : Nat) (tr : Option (List Char))
    (hrange : ∀ a ∈ assignments p, a.1 >>> sh < n) :
    ∃ t, build_ftype_table p sh tr (fresh_table n) n =
        some (t, expected_collisions sh [] (assignments p)) ∧
      t.length = n + 1 ∧ t[n]? = some NUL ∧
      ∀ pos, pos < n →
        t[pos]? = some (translate_opt tr ((first_claim sh (assignments p) pos).getD '?')) := by
  have hq : ∀ a ∈ assignments p, a.2 ≠ '?' := fun a ha =>
    known_mnemonics_ne_sentinel _ (assignments_mnemonic p a ha)
  obtain ⟨t, ht, hlen, hslots, hrest⟩ :=
    populate_spec sh n (assignments p) [] (fresh_table n)
      (fun pos hpos => by simpa [first_claim] using fresh_table_slot n pos hpos)
      (fun a ha => by cases ha) hq hrange
  rw [List.nil_append] at hslots
  rw [fresh_table_length] at hlen
  have hnul : t[n]? = some NUL := by rw [hrest n (le_refl n)]; exact fresh_table_nul n
  cases tr with
  | none =>
    exact ⟨t, by simp [build_ftype_table, ht], hlen, hnul, fun pos hpos => hslots pos hpos⟩
  | some s =>
    obtain ⟨T, hT, hTlen, hlow, hhigh⟩ := translate_pass_spec s t n (by omega)
    refine ⟨T, by simp [build_ftype_table, ht, hT], by omega, ?_, ?_⟩
    · rw [hhigh n (le_refl n)]; exact hnul
    · intro pos hpos
      rw [hlow pos hpos, hslots pos hpos]
      rfl

/-- The NUL terminator is not the sentinel. -/
theorem nul_ne_sentinel : NUL ≠ '?' := by decide

/-- Invariant of `populate` on a buffer of `n` slots followed by NUL, for
assignments whose shifted positions lie in the buffer: a slot holds the
sentinel exactly when no assignment made so far has its position. -/
theorem populate_sentinel (sh n : Nat) : ∀ (rest seen : List (Nat × Char)) (table : List Char),
    table.length = n + 1 → table[n]? = some NUL →
    (∀ i, i < n → (table[i]? = some '?' ↔ ∀ a ∈ seen, a.1 >>> sh ≠ i)) →
    (∀ a ∈ rest, a.2 ≠ '?') → (∀ a ∈ rest, a.1 >>> sh ≤ n) →
    ∃ t d, populate sh rest table = some (t, d) ∧ t.length = n + 1 ∧ t[n]? = some NUL ∧
      ∀ i, i < n → (t[i]? = some '?' ↔ ∀ a ∈ seen ++ rest, a.1 >>> sh ≠ i) := by
  intro rest
  induction rest with
  | nil =>
    intro seen table hlen hnul hinv _ _
    exact ⟨table, [], rfl, hlen, hnul, by simpa using hinv⟩
  | cons a rest ih =>
    intro seen table hlen hnul hinv hq hrange
    have ha : a.1 >>> sh ≤ n := hrange a (List.mem_cons_self _ _)
    have haq : a.2 ≠ '?' := hq a (List.mem_cons_self _ _)
    have hq1 : ∀ x ∈ rest, x.2 ≠ '?' := fun x hx => hq x (List.mem_cons_of_mem _ hx)
    have hrange1 : ∀ x ∈ rest, x.1 >>> sh ≤ n := fun x hx => hrange x (List.mem_cons_of_mem _ hx)
    have hlt : a.1 >>> sh < table.length := by omega
    have hget : table[a.1 >>> sh]? = some table[a.1 >>> sh] := List.getElem?_eq_getElem hlt
    have hmem : ∀ i, (∀ x ∈ seen ++ [a], x.1 >>> sh ≠ i) ↔
        ((∀ x ∈ seen, x.1 >>> sh ≠ i) ∧ a.1 >>> sh ≠ i) := by
      intro i
      constructor
      · intro h
        exact ⟨fun x hx => h x (List.mem_append_left _ hx),
          h a (List.mem_append_right _ (List.mem_singleton_self a))⟩
      · rintro ⟨h1, h2⟩ x hx
        rcases List.mem_append.mp hx with h | h
        · exact h1 x h
        · rw [List.mem_singleton.mp h]; exact h2
    have hassoc : seen ++ a :: rest = (seen ++ [a]) ++ rest := by simp
    by_cases hold : table[a.1 >>> sh] = '?'
    · have hne : a.1 >>> sh ≠ n := by
        intro h
        have h1 : table[a.1 >>> sh]? = some NUL := by rw [h]; exact hnul
        rw [hget, hold] at h1
        exact nul_ne_sentinel (Option.some.inj h1).symm
      have hinv1 : ∀ i, i < n → ((table.set (a.1 >>> sh) a.2)[i]? = some '?' ↔
          ∀ x ∈ seen ++ [a], x.1 >>> sh ≠ i) := by
        intro i hi
        rw [hmem i, List.getElem?_set]
        by_cases hp : a.1 >>> sh = i
        · rw [if_pos hp, if_pos hlt]
          constructor
          · intro h; exact absurd (Option.some.inj h) haq
          · rintro ⟨-, h⟩; exact absurd hp h
        · rw [if_neg hp, hinv i hi]
          exact ⟨fun h => ⟨h, hp⟩, fun h => h.1⟩
      obtain ⟨t, d, ht, htlen, htnul, hslots⟩ :=
        ih (seen ++ [a]) (table.set (a.1 >>> sh) a.2) (by simpa using hlen)
          (by rw [List.getElem?_set, if_neg hne]; exact hnul) hinv1 hq1 hrange1
      refine ⟨t, [] ++ d, ?_, htlen, htnul, by rw [hassoc]; exact hslots⟩
      obtain ⟨c, chr⟩ := a
      simp only [populate, add_ftype, hget, hold, if_true, ht]
    · have hinv1 : ∀ i, i < n → (table[i]? = some '?' ↔
          ∀ x ∈ seen ++ [a], x.1 >>> sh ≠ i) := by
        intro i hi
        rw [hmem i, ← hinv i hi]
        constructor
        · intro h
          refine ⟨h, ?_⟩
          intro hp
          rw [← hp, hget] at h
          exact hold (Option.some.inj h)
        · intro h; exact h.1
      obtain ⟨t, d, ht, htlen, htnul, hslots⟩ :=
        ih (seen ++ [a]) table hlen hnul hinv1 hq1 hrange1
      refine ⟨t, [collision (a.1 >>> sh) a.2 table[a.1 >>> sh]] ++ d, ?_, htlen, htnul,
        by rw [hassoc]; exact hslots⟩
      obtain ⟨c, chr⟩ := a
      simp only [populate, add_ftype, hget, hold, if_false, ht]

/-- Invariant of `populate` on a buffer of `n` slots followed by NUL, for
assignments whose shifted positions lie in the buffer: each slot holds the
mnemonic of its first claimant (or the sentinel), and every assignment to a
slot that already has a claimant is reported with the collision diagnostic
against that claimant. -/
theorem populate_first_claim (sh n : Nat) : ∀ (rest seen : List (Nat × Char)) (table : List Char),
    table.length = n + 1 → table[n]? = some NUL →
    (∀ i, i < n → table[i]? = some ((first_claim sh seen i).getD '?')) →
    (∀ a ∈ seen, a.2 ≠ '?') → (∀ a ∈ rest, a.2 ≠ '?') → (∀ a ∈ rest, a.1 >>> sh ≤ n) →
    ∃ t d, populate sh rest table = some (t, d) ∧ t.length = n + 1 ∧ t[n]? = some NUL ∧
      (∀ i, i < n → t[i]? = some ((first_claim sh (seen ++ rest) i).getD '?')) ∧
      (∀ l1 b l2 c, rest = l1 ++ b :: l2 → b.1 >>> sh < n →
        first_claim sh (seen ++ l1) (b.1 >>> sh) = some c →
        collision (b.1 >>> sh) b.2 c ∈ d) := by
  intro rest
  induction rest with
  | nil =>
    intro seen table hlen hnul hinv _ _ _
    refine ⟨table, [], rfl, hlen, hnul, by simpa using hinv, ?_⟩
    intro l1 b l2 c h
    cases l1 <;> cases h
  | cons a rest ih =>
    intro seen table hlen hnul hinv hseen hq hrange
    have ha : a.1 >>> sh ≤ n := hrange a (List.mem_cons_self _ _)
    have haq : a.2 ≠ '?' := hq a (List.mem_cons_self _ _)
    have hq1 : ∀ x ∈ rest, x.2 ≠ '?' := fun x hx => hq x (List.mem_cons_of_mem _ hx)
    have hrange1 : ∀ x ∈ rest, x.1 >>> sh ≤ n := fun x hx => hrange x (List.mem_cons_of_mem _ hx)
    have hseen1 : ∀ x ∈ seen ++ [a], x.2 ≠ '?' := by
      intro x hx
      rcases List.mem_append.mp hx with h | h
      · exact hseen x h
      · rw [List.mem_singleton.mp h]; exact haq
    have hassoc : ∀ l : List (Nat × Char), seen ++ a :: l = (seen ++ [a]) ++ l := by
      intro l; simp
    -- what the call for `a` does: new table, its diagnostics, and the invariant
    have hstep : ∃ t1 d1, add_ftype table (a.1 >>> sh) a.2 = some (t1, d1) ∧
        t1.length = n + 1 ∧ t1[n]? = some NUL ∧
        (∀ i, i < n → t1[i]? = some ((first_claim sh (seen ++ [a]) i).getD '?')) ∧
        (∀ c, a.1 >>> sh < n → first_claim sh seen (a.1 >>> sh) = some c →
          collision (a.1 >>> sh) a.2 c ∈ d1) := by
      rcases Nat.lt_or_ge (a.1 >>> sh) n with hlt | hge
      · have hslot := hinv _ hlt
        cases hfc : first_claim sh seen (a.1 >>> sh) with
        | none =>
          rw [hfc] at hslot
          refine ⟨table.set (a.1 >>> sh) a.2, [], ?_, by simpa using hlen, ?_, ?_, ?_⟩
          · simp only [add_ftype, hslot, Option.getD_none, if_true]
          · rw [List.getElem?_set, if_neg (by omega)]; exact hnul
          · intro i hi
            rw [first_claim_snoc]
            by_cases hp : a.1 >>> sh = i
            · subst hp
              have hl : a.1 >>> sh < table.length := by omega
              simp [hfc, List.getElem?_set, hl]
            · have := hinv i hi
              cases hfc1 : first_claim sh seen i with
              | none => simp [hfc1, hp, List.getElem?_set] at this ⊢; exact this
              | some c => simp [hfc1, hp, List.getElem?_set] at this ⊢; exact this
          · intro c _ hc
            cases hc
        | some old =>
          rw [hfc] at hslot
          have hold : old ≠ '?' := first_claim_ne_sentinel sh seen _ old hseen hfc
          refine ⟨table, [collision (a.1 >>> sh) a.2 old], ?_, hlen, hnul, ?_, ?_⟩
          · simp only [add_ftype, hslot, Option.getD_some, hold, if_false]
          · intro i hi
            rw [first_claim_snoc, hinv i hi]
            cases hfc1 : first_claim sh seen i with
            | none =>
              have hp : a.1 >>> sh ≠ i := by
                intro h; rw [h] at hfc; rw [hfc] at hfc1; cases hfc1
              simp [hp]
            | some c => simp
          · intro c _ hc
            cases hc
            exact List.mem_singleton_self _
      · have heq : a.1 >>> sh = n := by omega
        refine ⟨table, [collision (a.1 >>> sh) a.2 NUL], ?_, hlen, hnul, ?_, ?_⟩
        · simp only [add_ftype, heq, hnul, nul_ne_sentinel, if_false]
        · intro i hi
          rw [first_claim_snoc, hinv i hi]
          have hp : a.1 >>> sh ≠ i := by omega
          cases hfc1 : first_claim sh seen i with
          | none => simp [hp]
          | some c => simp
        · intro c hlt _
          omega
    obtain ⟨t1, d1, hadd, hlen1, hnul1, hinv1, hdiag1⟩ := hstep
    obtain ⟨t, d, ht, htlen, htnul, hslots, hdiag⟩ :=
      ih (seen ++ [a]) t1 hlen1 hnul1 hinv1 hseen1 hq1 hrange1
    refine ⟨t, d1 ++ d, ?_, htlen, htnul, by rw [hassoc]; exact hslots, ?_⟩
    · obtain ⟨c, chr⟩ := a
      simp only [populate, hadd, ht]
    · intro l1 b l2 c hsplit hb hc
      cases l1 with
      | nil =>
        simp only [List.nil_append, List.cons.injEq] at hsplit
        obtain ⟨rfl, -⟩ := hsplit
        rw [List.append_nil] at hc
        exact List.mem_append_left _ (hdiag1 c hb hc)
      | cons x l1 =>
        simp only [List.cons_append, List.cons.injEq] at hsplit
        obtain ⟨rfl, hrest⟩ := hsplit
        rw [hassoc] at hc
        exact List.mem_append_right _ (hdiag l1 b l2 c hrest hb hc)

/-! ## Lemmas on the option loop and the exit code -/

/-- An option that is a configuration error ends the run. -/
theorem option_step_bad (s : Settings) (o : GetoptResult) (h : bad_option o = true) :
    ∃ out, option_step s o = Except.error out := by
  cases o with
  | language optarg nxt =>
    cases optarg with
    | none => exact ⟨_, rfl⟩
    | some a =>
      simp only [bad_option, Bool.not_eq_true', Bool.or_eq_false_iff, beq_eq_false_iff_ne,
        ne_eq] at h
      obtain ⟨⟨h1, h2⟩, h3⟩ := h
      exact ⟨_, by simp only [option_step, if_neg h1, if_neg h2, if_neg h3]; rfl⟩
  | translate optarg nxt =>
    cases optarg with
    | none => exact ⟨_, rfl⟩
    | some a => simp [bad_option] at h
  | flag name optarg => simp [bad_option] at h
  | verbose => simp [bad_option] at h
  | question => simp [bad_option] at h
  | other c => simp [bad_option] at h

/-- An option that is no configuration error continues the loop. -/
theorem option_step_good (s : Settings) (o : GetoptResult) (h : bad_option o = false) :
    ∃ s1 out, option_step s o = Except.ok (s1, out) ∧
      s1.language = language_after s.language o := by
  cases o with
  | language optarg nxt =>
    cases optarg with
    | none => simp [bad_option] at h
    | some a =>
      by_cases h1 : a = "C"
      · exact ⟨⟨s.opt_verbose, s.ftype_translate, language_t.LANG_C⟩, [],
          by simp only [option_step, if_pos h1], by simp [language_after, h1]⟩
      · by_cases h2 : a = "D"
        · exact ⟨⟨s.opt_verbose, s.ftype_translate, language_t.LANG_D⟩, [],
            by simp only [option_step, if_neg h1, if_pos h2], by simp [language_after, h1, h2]⟩
        · by_cases h3 : a = "perl"
          · exact ⟨⟨s.opt_verbose, s.ftype_translate, language_t.LANG_PERL⟩, [],
              by simp only [option_step, if_neg h1, if_neg h2, if_pos h3],
              by simp [language_after, h1, h2, h3]⟩
          · simp [bad_option, h1, h2, h3] at h
  | translate optarg nxt =>
    cases optarg with
    | none => simp [bad_option] at h
    | some a => exact ⟨_, _, rfl, rfl⟩
  | flag name optarg => exact ⟨_, _, rfl, rfl⟩
  | verbose => exact ⟨_, _, rfl, rfl⟩
  | question => exact ⟨_, _, rfl, rfl⟩
  | other c => exact ⟨_, _, rfl, rfl⟩

/-- The option loop ends the run when some option is a configuration error. -/
theorem option_loop_bad : ∀ (opts : List GetoptResult) (s : Settings) (out : List Out),
    (∃ o ∈ opts, bad_option o = true) → ∃ out1, option_loop opts s out = Except.error out1 := by
  intro opts
  induction opts with
  | nil => intro s out h; obtain ⟨o, ho, -⟩ := h; cases ho
  | cons r rest ih =>
    intro s out h
    cases hr : bad_option r with
    | true =>
      obtain ⟨o1, ho1⟩ := option_step_bad s r hr
      exact ⟨out ++ o1, by simp only [option_loop, ho1]⟩
    | false =>
      obtain ⟨s1, o1, ho1, -⟩ := option_step_good s r hr
      have hrest : ∃ o ∈ rest, bad_option o = true := by
        obtain ⟨o, ho, hbad⟩ := h
        rcases List.mem_cons.mp ho with rfl | hmem
        · rw [hr] at hbad; cases hbad
        · exact ⟨o, hmem, hbad⟩
      obtain ⟨out1, hout1⟩ := ih s1 (out ++ o1) hrest
      exact ⟨out1, by simp only [option_loop, ho1, hout1]⟩

/-- The option loop completes when no option is a configuration error, and leaves
the last recognised language selected. -/
theorem option_loop_good : ∀ (opts : List GetoptResult) (s : Settings) (out : List Out),
    (∀ o ∈ opts, bad_option o = false) →
    ∃ s1 out1, option_loop opts s out = Except.ok (s1, out1) ∧
      s1.language = opts.foldl language_after s.language := by
  intro opts
  induction opts with
  | nil => intro s out _; exact ⟨s, out, rfl, rfl⟩
  | cons r rest ih =>
    intro s out h
    obtain ⟨s1, o1, ho1, hl1⟩ := option_step_good s r (h r (List.mem_cons_self _ _))
    obtain ⟨s2, out2, h2, hl2⟩ := ih s1 (out ++ o1) (fun o ho => h o (List.mem_cons_of_mem _ ho))
    exact ⟨s2, out2, by simp only [option_loop, ho1, h2], by rw [hl2, hl1]; rfl⟩

/-- Exit code of `main` for a nonzero `S_IFMT`, 32 or more loop iterations and
constants that shift to slots of the table: exit code 2 when some option is a
configuration error, when the mask is not one contiguous run of 1-bits, or when
no language is selected; exit code 0 exactly when no option is an error, the
mask is one contiguous run and a language is selected. -/
theorem main_exit_code_nonzero_mask (fuel : Nat) (p : Platform) (opts : List GetoptResult)
    (args : List String) (hfuel : 32 ≤ fuel) (hmask : p.S_IFMT % UINT_MOD ≠ 0)
    (hrange : ∀ msk sh, mask_analysis fuel p.S_IFMT = some (MaskResult.accepted msk sh) →
      ∀ a ∈ assignments p, a.1 >>> sh < table_size msk) :
    ((∃ o ∈ opts, bad_option o = true) → ∃ out, main fuel p opts args = Run.exit 2 out) ∧
    ((¬ ∃ lo len, 0 < len ∧ lo + len ≤ 32 ∧ p.S_IFMT % UINT_MOD = (2 ^ len - 1) * 2 ^ lo) →
      ∃ out, main fuel p opts args = Run.exit 2 out) ∧
    (selected_language opts = language_t.LANG_UNSPECIFIED →
      ∃ out, main fuel p opts args = Run.exit 2 out) ∧
    ((∃ out, main fuel p opts args = Run.exit 0 out) ↔
      ((∀ o ∈ opts, bad_option o = false) ∧
        (∃ lo len, 0 < len ∧ lo + len ≤ 32 ∧ p.S_IFMT % UINT_MOD = (2 ^ len - 1) * 2 ^ lo) ∧
        selected_language opts ≠ language_t.LANG_UNSPECIFIED)) := by
  have hmod : mask_analysis fuel (p.S_IFMT % UINT_MOD) = mask_analysis fuel p.S_IFMT := by
    simp only [mask_analysis, mask_error, Nat.mod_mod]
  by_cases hbad : ∃ o ∈ opts, bad_option o = true
  · obtain ⟨out, hout⟩ := option_loop_bad opts Settings.initial [] hbad
    have hmain : main fuel p opts args = Run.exit 2 out := by
      simp only [main, hout]
    refine ⟨fun _ => ⟨out, hmain⟩, fun _ => ⟨out, hmain⟩, fun _ => ⟨out, hmain⟩, ?_⟩
    constructor
    · rintro ⟨o, ho⟩
      rw [hmain] at ho
      cases ho
    · rintro ⟨hgood, -, -⟩
      obtain ⟨o, ho, hb⟩ := hbad
      rw [hgood o ho] at hb
      cases hb
  · have hgood : ∀ o ∈ opts, bad_option o = false := by
      intro o ho
      cases hb : bad_option o with
      | false => rfl
      | true => exact absurd ⟨o, ho, hb⟩ hbad
    obtain ⟨s, out0, hloop, hlang⟩ := option_loop_good opts Settings.initial [] hgood
    have hlang1 : s.language = selected_language opts := hlang
    by_cases hrun : ∃ lo len, 0 < len ∧ lo + len ≤ 32 ∧
        p.S_IFMT % UINT_MOD = (2 ^ len - 1) * 2 ^ lo
    · obtain ⟨lo, len, hlen, hw, hM⟩ := hrun
      have hacc : mask_analysis fuel p.S_IFMT =
          some (MaskResult.accepted (2 ^ len - 1) lo) := by
        rw [← hmod, hM]
        exact mask_analysis_of_run lo len fuel hlen hw (by omega)
      obtain ⟨t, ht, -, -, -⟩ := build_ftype_table_spec p lo (table_size (2 ^ len - 1))
        s.ftype_translate (hrange _ _ hacc)
      have hcases : (selected_language opts = language_t.LANG_UNSPECIFIED ∧
            ∃ out, main fuel p opts args = Run.exit 2 out) ∨
          (selected_language opts ≠ language_t.LANG_UNSPECIFIED ∧
            ∃ out, main fuel p opts args = Run.exit 0 out) := by
        rw [← hlang1]
        cases hl : s.language with
        | LANG_UNSPECIFIED =>
          left
          exact ⟨rfl, _, by simp only [main, hloop, hacc, ht, hl]; rfl⟩
        | LANG_C =>
          right
          exact ⟨by simp, _, by simp only [main, hloop, hacc, ht, hl]; rfl⟩
        | LANG_D =>
          right
          exact ⟨by simp, _, by simp only [main, hloop, hacc, ht, hl]; rfl⟩
        | LANG_PERL =>
          right
          exact ⟨by simp, _, by simp only [main, hloop, hacc, ht, hl]; rfl⟩
      refine ⟨fun h => absurd h hbad, fun h => absurd ⟨lo, len, hlen, hw, hM⟩ h, ?_, ?_⟩
      · intro hu
        rcases hcases with ⟨-, h⟩ | ⟨hne, -⟩
        · exact h
        · exact absurd hu hne
      · constructor
        · rintro ⟨out, hout⟩
          refine ⟨hgood, ⟨lo, len, hlen, hw, hM⟩, ?_⟩
          rcases hcases with ⟨-, out2, h2⟩ | ⟨hne, -⟩
          · rw [h2] at hout
            cases hout
          · exact hne
        · rintro ⟨-, -, hne⟩
          rcases hcases with ⟨hu, -⟩ | ⟨-, h⟩
          · exact absurd hu hne
          · exact h
    · have hrej : mask_analysis fuel p.S_IFMT =
          some (MaskResult.rejected (mask_error p.S_IFMT)) := by
        have h := mask_analysis_rejects (p.S_IFMT % UINT_MOD) fuel hmask
          (Nat.mod_lt _ (by decide)) hrun hfuel
        rw [hmod] at h
        rw [h]
        simp only [mask_error, Nat.mod_mod]
      have hmain : main fuel p opts args =
          Run.exit 2 (out0 ++ non_option_args args ++ mask_error p.S_IFMT) := by
        simp only [main, hloop, hrej]
      refine ⟨fun _ => ⟨_, hmain⟩, fun _ => ⟨_, hmain⟩, fun _ => ⟨_, hmain⟩, ?_⟩
      constructor
      · rintro ⟨o, ho⟩
        rw [hmain] at ho
        cases ho
      · rintro ⟨-, h, -⟩
        exact absurd h hrun

/-- The mask-shape diagnostics and the collision diagnostic are written to the
error stream. -/
theorem mask_and_collision_on_stderr (S_IFMT pos : Nat) (chr old_chr : Char) :
    (∀ o ∈ mask_error S_IFMT, o.chan = Chan.stderr) ∧
      (collision pos chr old_chr).chan = Chan.stderr := by
  constructor
  · intro o ho
    simp only [mask_error, List.mem_cons, List.mem_singleton, List.not_mem_nil, or_false] at ho
    rcases ho with h | h | h <;> (subst h; rfl)
  · rfl

/-! ## The claims -/

/-- Claim C1: a 32-bit mask `M` that is one contiguous run of 1-bits, that is
`len` set bits (`0 < len`) starting at bit `lo` with `lo + len ≤ 32`, passes the
mask analysis of `main` as soon as the alignment loop is given more than `lo`
iterations: the analysis returns the shift `S = lo` and the effective mask
`E = 2 ^ len - 1`, with `M >> S = E` and `E + 1 = 2 ^ len` a power of two. -/
theorem mask_analysis_accepts_run (M lo len fuel : Nat) (hlen : 0 < len) (hw : lo + len ≤ 32)
    (hM : M = (2 ^ len - 1) * 2 ^ lo) (hfuel : lo < fuel) :
    mask_analysis fuel M = some (MaskResult.accepted (2 ^ len - 1) lo) ∧
      M >>> lo = 2 ^ len - 1 ∧ (2 ^ len - 1) + 1 = 2 ^ len := by
  subst hM
  have hpos : 0 < 2 ^ len := Nat.pow_pos (by decide)
  refine ⟨mask_analysis_of_run lo len fuel hlen hw hfuel, ?_, by omega⟩
  rw [Nat.shiftRight_eq_div_pow]
  exact Nat.mul_div_cancel _ (Nat.pow_pos (by decide))

theorem mask_analysis_accepts_run_witness :
    mask_analysis 32 0xF000 = some (MaskResult.accepted (2 ^ 4 - 1) 12) ∧
      0xF000 >>> 12 = 2 ^ 4 - 1 ∧ (2 ^ 4 - 1) + 1 = 2 ^ 4 :=
  mask_analysis_accepts_run 0xF000 12 4 32 (by decide) (by decide) (by decide) (by decide)

/-- Claim C2, evaluated at the mask `0`: zero has no 1-bit, so it is not a single
contiguous run of 1-bits, yet the mask analysis never reaches the
`is_simple_mask` test. The alignment loop keeps shifting `0`, so for every
iteration budget the analysis is still running: the mask-shape error and
`exit(2)` are never produced. -/
theorem mask_analysis_zero_hangs :
    (¬ ∃ lo len, 0 < len ∧ lo + len ≤ 32 ∧ 0 = (2 ^ len - 1) * 2 ^ lo) ∧
      ∀ fuel, mask_analysis fuel 0 = none := by
  constructor
  · rintro ⟨lo, len, hlen, -, h⟩
    have h1 := ones_odd len hlen
    have hpos : 0 < 2 ^ lo := Nat.pow_pos (by decide)
    rcases Nat.mul_eq_zero.mp h.symm with h2 | h2 <;> omega
  · intro fuel
    simp [mask_analysis, align_loop_zero]

/-- Claim C3 fails as stated: on a platform with `S_IFMT = 0x7000` (accepted
with shift 12, table size 8) the regular file constant `0x8000` and the symbolic
link constant `0x8800` both shift to position 8, the byte after the last slot.
`build_ftype_table` succeeds, but position 8 keeps the terminating NUL instead
of the mnemonic `'-'` of the first of the two, no slot of the table holds a
mnemonic, and two diagnostics are written, one of them for the first
assignment. -/
theorem nul_slot_position_keeps_no_mnemonic :
    mask_analysis 32 nul_slot_platform.S_IFMT = some (MaskResult.accepted 7 12) ∧
      table_size 7 = 8 ∧
      assignments nul_slot_platform = [(0x8000, '-'), (0x8800, 'l')] ∧
      0x8000 >>> 12 = 8 ∧ 0x8800 >>> 12 = 8 ∧
      ∃ t diag, build_ftype_table nul_slot_platform 12 none (fresh_table 8) 8 = some (t, diag) ∧
        t = ['?', '?', '?', '?', '?', '?', '?', '?', NUL] ∧
        t[8]? ≠ some '-' ∧
        diag.length = 2 := by
  refine ⟨by decide, by decide, by decide, by decide, by decide, _, _, rfl, ?_, ?_, ?_⟩
  · decide
  · decide
  · decide

/-- Claim C3, amended: `build_ftype_table` without translation, started on the
all-`'?'` table of `n` slots, with every defined constant shifting to a position
of the allocated buffer (at most `n`). The run succeeds, and whenever an
assignment `a` is the first in source order at its position, that position is a
slot of the table (below `n`), and a later assignment `b` has the same
position, the slot holds the mnemonic of `a` and the diagnostic
`ERROR: collision, position <pos>, '<mnemonic of b>' vs '<mnemonic of a>'`
has been written to the error stream. -/
theorem build_ftype_table_first_wins (p : Platform) (sh n : Nat)
    (hrange : ∀ a ∈ assignments p, a.1 >>> sh ≤ n) :
    ∃ t diag, build_ftype_table p sh none (fresh_table n) n = some (t, diag) ∧
      ∀ pre a mid b post, assignments p = pre ++ a :: (mid ++ b :: post) →
        (∀ x ∈ pre, x.1 >>> sh ≠ a.1 >>> sh) → b.1 >>> sh = a.1 >>> sh →
        a.1 >>> sh < n →
        t[a.1 >>> sh]? = some a.2 ∧
        (⟨Chan.stderr, "ERROR: collision, position " ++ toString (b.1 >>> sh) ++ ", '" ++
          String.singleton b.2 ++ "' vs '" ++ String.singleton a.2 ++ "'\n"⟩ : Out) ∈ diag := by
  have hq : ∀ a ∈ assignments p, a.2 ≠ '?' := fun a ha =>
    known_mnemonics_ne_sentinel _ (assignments_mnemonic p a ha)
  obtain ⟨t, d, ht, -, -, hslots, hdiag⟩ :=
    populate_first_claim sh n (assignments p) [] (fresh_table n) (fresh_table_length n)
      (fresh_table_nul n)
      (fun pos hpos => by simpa [first_claim] using fresh_table_slot n pos hpos)
      (fun a ha => by cases ha) hq hrange
  rw [List.nil_append] at hslots
  refine ⟨t, d, by simp only [build_ftype_table, ht], ?_⟩
  intro pre a mid b post has hpre hb hlt
  constructor
  · rw [hslots _ hlt, has, first_claim_first sh pre _ a hpre]
    rfl
  · have hsplit : assignments p = (pre ++ a :: mid) ++ b :: post := by
      rw [has]; simp
    have hc : first_claim sh ([] ++ (pre ++ a :: mid)) (b.1 >>> sh) = some a.2 := by
      rw [List.nil_append, hb]
      exact first_claim_first sh pre mid a hpre
    have hmem := hdiag (pre ++ a :: mid) b post a.2 hsplit (by rw [hb]; exact hlt) hc
    have htext : collision (b.1 >>> sh) b.2 a.2 =
        ⟨Chan.stderr, "ERROR: collision, position " ++ toString (b.1 >>> sh) ++ ", '" ++
          String.singleton b.2 ++ "' vs '" ++ String.singleton a.2 ++ "'\n"⟩ := rfl
    rw [htext] at hmem
    exact hmem

theorem build_ftype_table_first_wins_witness :
    (∀ a ∈ assignments door_alias_platform, a.1 >>> 12 ≤ 16) ∧
      ∃ t diag, build_ftype_table door_alias_platform 12 none (fresh_table 16) 16 =
          some (t, diag) ∧
        t[4]? = some 'd' ∧
        (⟨Chan.stderr, "ERROR: collision, position 4, 'D' vs 'd'\n"⟩ : Out) ∈ diag := by
  refine ⟨by decide, ?_⟩
  obtain ⟨t, diag, hb, hall⟩ :=
    build_ftype_table_first_wins door_alias_platform 12 16 (by decide)
  exact ⟨t, diag, hb,
    hall [(0x1000, 'p'), (0x2000, 'c')] (0x4000, 'd')
      [(0x6000, 'b'), (0x8000, '-'), (0xA000, 'l'), (0xC000, 's')] (0x4000, 'D') []
      (by decide) (by decide) (by decide) (by decide)⟩

/-- Claim C4: `add_ftype` at an in-range position `pos`. When the slot holds the
sentinel `'?'` the result has `chr` at `pos`, every other slot and the length
unchanged, and no diagnostic. Otherwise the table is returned unchanged with
exactly one diagnostic, written to the error stream, whose text
`ERROR: collision, position <pos>, '<chr>' vs '<existing character>'` names
`pos`, the incoming `chr` and the character already in the slot. -/
theorem add_ftype_spec (table : List Char) (pos : Nat) (chr : Char) (hpos : pos < table.length) :
    (table[pos] = '?' →
      add_ftype table pos chr = some (table.set pos chr, []) ∧
      (table.set pos chr)[pos]? = some chr ∧
      (table.set pos chr).length = table.length ∧
      ∀ i, i ≠ pos → (table.set pos chr)[i]? = table[i]?) ∧
    (table[pos] ≠ '?' →
      add_ftype table pos chr =
        some (table,
          [⟨Chan.stderr, "ERROR: collision, position " ++ toString pos ++ ", '" ++
            String.singleton chr ++ "' vs '" ++ String.singleton table[pos] ++ "'\n"⟩])) := by
  have hget : table[pos]? = some table[pos] := List.getElem?_eq_getElem hpos
  constructor
  · intro h
    refine ⟨by simp [add_ftype, hget, h], ?_, by simp, ?_⟩
    · simp [List.getElem?_set, hpos]
    · intro i hi
      simp [List.getElem?_set, Ne.symm hi]
  · intro hne
    have htext : collision pos chr table[pos] =
        ⟨Chan.stderr, "ERROR: collision, position " ++ toString pos ++ ", '" ++
          String.singleton chr ++ "' vs '" ++ String.singleton table[pos] ++ "'\n"⟩ := rfl
    rw [← htext]
    simp [add_ftype, hget, hne]

theorem add_ftype_spec_witness :
    add_ftype ['?', 'd', NUL] 0 'p' = some (['p', 'd', NUL], []) ∧
      add_ftype ['?', 'd', NUL] 1 'D' =
        some (['?', 'd', NUL], [⟨Chan.stderr, "ERROR: collision, position 1, 'D' vs 'd'\n"⟩]) :=
  ⟨((add_ftype_spec ['?', 'd', NUL] 0 'p' (by decide)).1 (by decide)).1,
    (add_ftype_spec ['?', 'd', NUL] 1 'D' (by decide)).2 (by decide)⟩

/-- Claim C5: the translation pass with the single pair `(f, t)` (translate
string `[f, t]`) over the first `size` slots of a table: the pass succeeds, the
length is unchanged, every slot below `size` that held `f` holds `t`, and
every position that did not hold `f` is unchanged. -/
theorem translate_pass_single_pair (table : List Char) (size : Nat) (f t : Char)
    (hsize : size ≤ table.length) :
    ∃ T, translate_pass [f, t] table size = some T ∧ T.length = table.length ∧
      (∀ i, i < size → table[i]? = some f → T[i]? = some t) ∧
      (∀ i : Nat, table[i]? ≠ some f → T[i]? = table[i]?) := by
  obtain ⟨T, hT, hlen, hlow, hhigh⟩ := translate_pass_spec [f, t] table size hsize
  have hslot : ∀ c, translate_slot [f, t] c = if c = f then t else c := by
    intro c
    rw [translate_slot_cons_cons, translate_slot_nil]
  refine ⟨T, hT, hlen, ?_, ?_⟩
  · intro i hi hf
    rw [hlow i hi, hf, Option.map_some', hslot, if_pos rfl]
  · intro i hne
    rcases Nat.lt_or_ge i size with hi | hi
    · rw [hlow i hi]
      cases hc : table[i]? with
      | none => rfl
      | some c =>
        have hcf : c ≠ f := by
          intro h; apply hne; rw [hc, h]
        rw [Option.map_some', hslot, if_neg hcf]
    · exact hhigh i hi

theorem translate_pass_single_pair_witness :
    ∃ T, translate_pass ['d', 'D'] ['?', 'd', '-', NUL] 3 = some T ∧
      T.length = ['?', 'd', '-', NUL].length ∧
      (∀ i : Nat, i < 3 → ['?', 'd', '-', NUL][i]? = some 'd' → T[i]? = some 'D') ∧
      (∀ i : Nat, ['?', 'd', '-', NUL][i]? ≠ some 'd' → T[i]? = ['?', 'd', '-', NUL][i]?) :=
  translate_pass_single_pair ['?', 'd', '-', NUL] 3 'd' 'D' (by decide)

/-- Claim C6: for a translate string of even length the translation pass sets
each of the first `size` slots to the left fold of the rule pairs, in list
order, over the slot's initial character (`apply_rules (rule_pairs tr)`), and
leaves the rest of the buffer alone; in particular with the chained rules
`"abbc"` every slot that held `'a'` ends up holding `'c'`. -/
theorem translate_pass_is_fold (tr table : List Char) (size : Nat)
    (heven : tr.length % 2 = 0) (hsize : size ≤ table.length) :
    ∃ T, translate_pass tr table size = some T ∧ T.length = table.length ∧
      (∀ i, i < size → T[i]? = table[i]?.map (apply_rules (rule_pairs tr))) ∧
      (∀ i, size ≤ i → T[i]? = table[i]?) ∧
      (tr = ['a', 'b', 'b', 'c'] → ∀ i, i < size → table[i]? = some 'a' → T[i]? = some 'c') := by
  obtain ⟨T, hT, hlen, hlow, hhigh⟩ := translate_pass_spec tr table size hsize
  have hfold : ∀ c, translate_slot tr c = apply_rules (rule_pairs tr) c := fun c =>
    translate_slot_eq_apply_rules (tr.length / 2) tr c (by omega)
  have hlow1 : ∀ i, i < size → T[i]? = table[i]?.map (apply_rules (rule_pairs tr)) := by
    intro i hi
    rw [hlow i hi]
    cases table[i]? with
    | none => rfl
    | some c => simp [hfold]
  refine ⟨T, hT, hlen, hlow1, hhigh, ?_⟩
  intro htr i hi ha
  rw [hlow1 i hi, ha, htr]
  decide

theorem translate_pass_is_fold_witness :
    ∃ T, translate_pass ['a', 'b', 'b', 'c'] ['a', 'b', '?', NUL] 3 = some T ∧
      T.length = ['a', 'b', '?', NUL].length ∧
      (∀ i : Nat, i < 3 → T[i]? =
        ['a', 'b', '?', NUL][i]?.map (apply_rules (rule_pairs ['a', 'b', 'b', 'c']))) ∧
      (∀ i : Nat, 3 ≤ i → T[i]? = ['a', 'b', '?', NUL][i]?) ∧
      (['a', 'b', 'b', 'c'] = ['a', 'b', 'b', 'c'] → ∀ i : Nat, i < 3 →
        ['a', 'b', '?', NUL][i]? = some 'a' → T[i]? = some 'c') :=
  translate_pass_is_fold ['a', 'b', 'b', 'c'] ['a', 'b', '?', NUL] 3 (by decide) (by decide)

/-- Claim C7: the scenario `S_IFMT = 0xF000` with only directory `0x4000`,
regular file `0x8000` and symbolic link `0xA000` defined and no translation.
With more than 12 loop iterations available the mask analysis yields the
aligned mask 15 and the shift 12, the table size is 16, and the built table has
`'d'` at position 4, `'-'` at position 8, `'l'` at position 10 and `'?'` at
every other position (followed by the terminating NUL), with no diagnostic. -/
theorem scenario_f000 (fuel : Nat) (hfuel : 12 < fuel) :
    mask_analysis fuel scenario_platform.S_IFMT = some (MaskResult.accepted 15 12) ∧
      table_size 15 = 16 ∧
      build_ftype_table scenario_platform 12 none (fresh_table 16) 16 =
        some (['?', '?', '?', '?', 'd', '?', '?', '?', '-', '?', 'l', '?', '?', '?', '?', '?',
          NUL], []) := by
  refine ⟨?_, by decide, by decide⟩
  have h := mask_analysis_of_run 12 4 fuel (by decide) (by decide) hfuel
  have hM : scenario_platform.S_IFMT = (2 ^ 4 - 1) * 2 ^ 12 := by decide
  rw [hM, h]
  rfl

theorem scenario_f000_witness :
    mask_analysis 32 scenario_platform.S_IFMT = some (MaskResult.accepted 15 12) ∧
      table_size 15 = 16 ∧
      build_ftype_table scenario_platform 12 none (fresh_table 16) 16 =
        some (['?', '?', '?', '?', 'd', '?', '?', '?', '-', '?', 'l', '?', '?', '?', '?', '?',
          NUL], []) :=
  scenario_f000 32 (by decide)

/-- Claim C10, evaluated at `S_IFMT = 0` with the command line `--language=C`:
the mask is not a single contiguous run of 1-bits, so the claim asks for exit
code 2, but for every iteration budget `main` is still inside the alignment
loop, having written nothing: no exit code is produced. -/
theorem main_zero_mask_hangs :
    (¬ ∃ lo len, 0 < len ∧ lo + len ≤ 32 ∧ zero_mask_platform.S_IFMT = (2 ^ len - 1) * 2 ^ lo) ∧
      ∀ fuel, main fuel zero_mask_platform [GetoptResult.language (some "C") ""] [] =
        Run.hang [] := by
  constructor
  · rintro ⟨lo, len, hlen, -, h⟩
    have h1 := ones_odd len hlen
    have hpos : 0 < 2 ^ lo := Nat.pow_pos (by decide)
    have h0 : (2 ^ len - 1) * 2 ^ lo = 0 := h.symm
    rcases Nat.mul_eq_zero.mp h0 with h2 | h2 <;> omega
  · intro fuel
    have hm : mask_analysis fuel zero_mask_platform.S_IFMT = none := by
      simp [mask_analysis, zero_mask_platform, align_loop_zero]
    have ho : option_loop [GetoptResult.language (some "C") ""] Settings.initial [] =
        Except.ok (⟨false, none, language_t.LANG_C⟩, []) := by
      simp [option_loop, option_step, Settings.initial]
    simp [main, ho, hm, non_option_args]

/-- Claim C11, evaluated at the command line `--language=pascal extra`: whatever
the platform, `main` ends with `exit(2)` having written the unknown-language
diagnostic and the list of known languages with `printf`, that is to standard
output, and nothing to the error stream. -/
theorem unknown_language_on_stdout :
    ∀ (fuel : Nat) (p : Platform),
      main fuel p [GetoptResult.language (some "pascal") "extra"] ["extra"] =
        Run.exit 2
          [ ⟨Chan.stdout, "extra: unknown programming language, 'pascal'.\n"⟩,
            ⟨Chan.stdout, "Known programming languages are:\n"⟩,
            ⟨Chan.stdout, "    C, D, perl\n"⟩ ] := by
  intro fuel p
  have ho : option_loop [GetoptResult.language (some "pascal") "extra"] Settings.initial [] =
      Except.error
        [ ⟨Chan.stdout, "extra: unknown programming language, 'pascal'.\n"⟩,
          ⟨Chan.stdout, "Known programming languages are:\n"⟩,
          ⟨Chan.stdout, "    C, D, perl\n"⟩ ] := by
    simp [option_loop, option_step, show_languages, printf]
  simp only [main, ho]

/-- Claim C12: for every nonzero 32-bit mask `M` the alignment loop of `main`,
given 32 or more iterations, ends with a shift `sh` and an aligned value `msk`
such that bit `sh` of `M` is set and every lower bit is clear (`sh` is the
number of trailing zero bits), `msk = M >> sh`, and `msk` is odd. -/
theorem align_loop_trailing_zeros (M fuel : Nat) (h0 : M ≠ 0) (hM : M < UINT_MOD)
    (hfuel : 32 ≤ fuel) :
    ∃ msk sh, align_loop fuel M 0 = some (msk, sh) ∧
      M.testBit sh = true ∧ (∀ j, j < sh → M.testBit j = false) ∧
      msk = M >>> sh ∧ msk % 2 = 1 := by
  obtain ⟨msk, sh, hsh, hodd, hMeq, hmsk, hrun, -⟩ := align_loop_nonzero M h0 hM
  have hbits := testBit_odd_shift msk sh hodd
  rw [← hMeq] at hbits
  exact ⟨msk, sh, hrun fuel (by omega), hbits.1, hbits.2, hmsk, hodd⟩

theorem align_loop_trailing_zeros_witness :
    ∃ msk sh, align_loop 32 0xF000 0 = some (msk, sh) ∧
      (0xF000).testBit sh = true ∧ (∀ j, j < sh → (0xF000).testBit j = false) ∧
      msk = 0xF000 >>> sh ∧ msk % 2 = 1 :=
  align_loop_trailing_zeros 0xF000 32 (by decide) (by decide) (by decide)

/-- Claim C13: every slot of the freshly initialised table holds `'?'`; and for
every table size `n`, shift and ordered list of assignments none of whose
mnemonics is `'?'` and whose shifted positions lie in the buffer, population
without translation succeeds and a slot holds `'?'` if and only if no
assignment has that slot's index as shifted position. In particular with the
empty list every slot holds `'?'`. The populated table is what
`build_ftype_table` returns, without translation, on a platform with these
assignments. -/
theorem populate_sentinel_iff (as : List (Nat × Char)) (sh n : Nat)
    (hq : ∀ a ∈ as, a.2 ≠ '?') (hrange : ∀ a ∈ as, a.1 >>> sh ≤ n) :
    (∀ i, i < n → (fresh_table n)[i]? = some '?') ∧
    ∃ t d, populate sh as (fresh_table n) = some (t, d) ∧
      (∀ i, i < n → (t[i]? = some '?' ↔ ∀ a ∈ as, a.1 >>> sh ≠ i)) ∧
      (as = [] → ∀ i, i < n → t[i]? = some '?') ∧
      (∀ p, assignments p = as →
        build_ftype_table p sh none (fresh_table n) n = some (t, d)) := by
  refine ⟨fun i hi => fresh_table_slot n i hi, ?_⟩
  obtain ⟨t, d, ht, -, -, hslots⟩ :=
    populate_sentinel sh n as [] (fresh_table n) (fresh_table_length n) (fresh_table_nul n)
      (fun i hi => by simp [fresh_table_slot n i hi]) hq hrange
  rw [List.nil_append] at hslots
  refine ⟨t, d, ht, hslots, ?_, ?_⟩
  · intro hnil i hi
    rw [hslots i hi, hnil]
    intro a ha
    cases ha
  · intro p hp
    simp only [build_ftype_table, hp, ht]

theorem populate_sentinel_iff_witness :
    (∀ a ∈ assignments door_alias_platform, a.2 ≠ '?') ∧
    (∀ a ∈ assignments door_alias_platform, a.1 >>> 12 ≤ 16) ∧
    (∀ i, i < 16 → (fresh_table 16)[i]? = some '?') ∧
    ∃ t d, populate 12 (assignments door_alias_platform) (fresh_table 16) = some (t, d) ∧
      (∀ i, i < 16 →
        (t[i]? = some '?' ↔ ∀ a ∈ assignments door_alias_platform, a.1 >>> 12 ≠ i)) ∧
      (assignments door_alias_platform = [] → ∀ i, i < 16 → t[i]? = some '?') ∧
      (∀ p, assignments p = assignments door_alias_platform →
        build_ftype_table p 12 none (fresh_table 16) 16 = some (t, d)) :=
  ⟨by decide, by decide,
    populate_sentinel_iff (assignments door_alias_platform) 12 16 (by decide) (by decide)⟩

/-- Claim C14, evaluated at `S_IFMT = 0xFFFFFFFF`: the mask is accepted with
shift 0, but the table size `msk + 1` wraps to 0 in 32-bit unsigned arithmetic.
So the lookup index of the mode word `0x4000` is not below the table size; the
constant `0x4000`, which lies inside the mask, is passed to `add_ftype` at a
position outside the buffer; and `main` runs into that access. -/
theorem full_mask_table_empty :
    mask_analysis 32 full_mask_platform.S_IFMT = some (MaskResult.accepted 0xFFFFFFFF 0) ∧
      table_size 0xFFFFFFFF = 0 ∧
      ¬ ((0x4000 &&& full_mask_platform.S_IFMT) >>> 0 < table_size 0xFFFFFFFF) ∧
      0x4000 &&& full_mask_platform.S_IFMT = 0x4000 ∧
      add_ftype (fresh_table (table_size 0xFFFFFFFF)) (0x4000 >>> 0) 'd' = none ∧
      ∀ fuel, main (fuel + 1) full_mask_platform [GetoptResult.language (some "C") ""] [] =
        Run.fault := by
  refine ⟨by decide, by decide, by decide, by decide, by decide, ?_⟩
  intro fuel
  have hacc : mask_analysis (fuel + 1) full_mask_platform.S_IFMT =
      some (MaskResult.accepted 0xFFFFFFFF 0) :=
    mask_analysis_of_run 0 32 (fuel + 1) (by decide) (by decide) (by omega)
  have ho : option_loop [GetoptResult.language (some "C") ""] Settings.initial [] =
      Except.ok (⟨false, none, language_t.LANG_C⟩, []) := by
    simp [option_loop, option_step, Settings.initial]
  have hb : build_ftype_table full_mask_platform 0 none (fresh_table (table_size 0xFFFFFFFF))
      (table_size 0xFFFFFFFF) = none := by
    decide
  simp only [main, ho, hacc, hb]

/-- Claim C15: for every nonzero 32-bit mask the alignment loop of `main` ends
after `sh ≤ 31` iterations: `sh + 1` tests of the loop condition reach the exit
with shift `sh`, `sh` tests do not, and any budget of 32 or more gives the same
result. -/
theorem align_loop_terminates (M : Nat) (h0 : M ≠ 0) (hM : M < UINT_MOD) :
    ∃ msk sh, sh ≤ 31 ∧ align_loop (sh + 1) M 0 = some (msk, sh) ∧
      align_loop sh M 0 = none ∧
      ∀ fuel, 32 ≤ fuel → align_loop fuel M 0 = some (msk, sh) := by
  obtain ⟨msk, sh, hsh, -, -, -, hrun, hshort⟩ := align_loop_nonzero M h0 hM
  exact ⟨msk, sh, hsh, hrun (sh + 1) (by omega), hshort sh (le_refl sh),
    fun fuel hf => hrun fuel (by omega)⟩

theorem align_loop_terminates_witness :
    ∃ msk sh, sh ≤ 31 ∧ align_loop (sh + 1) 0x80000000 0 = some (msk, sh) ∧
      align_loop sh 0x80000000 0 = none ∧
      ∀ fuel, 32 ≤ fuel → align_loop fuel 0x80000000 0 = some (msk, sh) :=
  align_loop_terminates 0x80000000 (by decide) (by decide)

/-- Claim C16: for every table, table size, shift, mask value and verbose
setting, `generate_c` and `generate_d` write exactly the same text. -/
theorem generate_c_eq_generate_d (opt_verbose : Bool) (S_IFMT : Nat) (ftype_table : List Char)
    (ftype_table_size ifmt_shift : Nat) :
    generate_c opt_verbose S_IFMT ftype_table ftype_table_size ifmt_shift =
      generate_d opt_verbose S_IFMT ftype_table ftype_table_size ifmt_shift :=
  rfl

end GenFtype
